import Mathlib

/-!
Verification of the maskuni word enumerator against its specification.

The development shallowly embeds the enumeration engine of the source tree:

* `Charset.h` (cursor-carrying charsets),
* `Mask.h` (the odometer over the Cartesian product of charsets),
* `ReadCharsets.cpp` (built-in charset registries),
* `ExpandCharset.h` (reference expansion for named charsets),
* `ReadMasks.cpp` (mask-line parser and the mask-file generator),
* `ReadBruteforce.cpp` (two-stage bruteforce mask generator),
* `main.cpp` (the `work` driver: counting pass, job/range resolution,
  emission loop).

Codepoints are natural numbers (bytes `0..255` in byte mode, Unicode scalar
values in unicode mode); machine integers are embedded as `Nat` with explicit
`2^64` (or `2^32`) bounds where the C code checks or wraps.  A charset is a
plain `List Nat`; the source constructor aborts on an empty charset, so
theorems carry nonemptiness hypotheses where the source relies on it.
Cursor state is passed explicitly: a mask's state is the list of per-position
cursor indices.
-/

namespace Maskuni

/-! ## Charset (Charset.h)

`Charset<T>` holds an immutable array plus a cursor `m_p`.  We model the
array as a `List Nat` and the cursor as an index.  The member functions
`setPosition`, `getCurrent` and `getNext` are translated below.
-/

/-- `Charset::setPosition`: `if (o >= set_len) o = o % set_len; m_p = m_set + o`.
Returns the new cursor index. -/
def csSetPosition (s : List Nat) (o : Nat) : Nat :=
  if o ≥ s.length then o % s.length else o

/-- `Charset::getCurrent`: `*out = *m_p` — read the element at the cursor. -/
def csGetCurrent (s : List Nat) (p : Nat) : Nat :=
  s.getD p 0

/-- `Charset::getNext`: advance the cursor by one wrapping at the end, read
the element at the new cursor, and report whether the cursor wrapped back to
the start (`m_p == m_set`).  Returns (new cursor, element read, wrapped). -/
def csGetNext (s : List Nat) (p : Nat) : Nat × Nat × Bool :=
  if p + 1 = s.length then (0, s.getD 0 0, true)
  else (p + 1, s.getD (p + 1) 0, false)

/-! ## Mask (Mask.h)

`Mask<T>` is a list of charsets, left to right.  `setPosition` and `getNext`
iterate over the charsets from the right (the rightmost charset varies
fastest), so the primitive recursive versions below work on the reversed
charset list (suffix `Rev`); the mask-level functions reverse at the
boundary. -/

/-- Number of words of a mask, as the mathematical product of the charset
lengths; the rightmost charset is listed first.  (`Mask::m_len`; the
overflow check of `push_charset_right` is modelled separately by
`maskLenChecked`.) -/
def lenRev (msr : List (List Nat)) : Nat :=
  (msr.map List.length).prod

/-- `Mask::setPosition` loop: `for it in reversed charsets: q = o / len;
r = o - q*len; it.setPosition(r); o = q`.  Input and output are in
rightmost-first order. -/
def setPosRev : List (List Nat) → Nat → List Nat
  | [], _ => []
  | s :: rest, o => o % s.length :: setPosRev rest (o / s.length)

/-- `Mask::getCurrent` on reversed lists: each charset reads the element at
its cursor. -/
def currentRev (msr : List (List Nat)) (psr : List Nat) : List Nat :=
  List.zipWith (fun s p => s.getD p 0) msr psr

/-- State-only part of `Mask::getNext`: advance the rightmost wheel and
propagate the carry left; returns (new cursors, carry out). -/
def advanceRev : List (List Nat) → List Nat → List Nat × Bool
  | s :: ms, p :: ps =>
    if p + 1 = s.length then
      let r := advanceRev ms ps
      (0 :: r.1, r.2)
    else ((p + 1) :: ps, false)
  | _, ps => (ps, true)

/-- `Mask::getNext`: `carry = true; for i from rightmost while carry:
carry = charset[i].getNext(w + i)`.  Besides the cursors it updates the
word buffer: only the wheels reached by the carry are written.
Returns (new cursors, new buffer, carry out); all lists rightmost-first. -/
def getNextRev : List (List Nat) → List Nat → List Nat → List Nat × List Nat × Bool
  | s :: ms, p :: ps, _ :: bs =>
    if p + 1 = s.length then
      let r := getNextRev ms ps bs
      (0 :: r.1, s.getD 0 0 :: r.2.1, r.2.2)
    else ((p + 1) :: ps, s.getD (p + 1) 0 :: bs, false)
  | _, ps, bs => (ps, bs, true)

/-- Number of wheels the `getNext` loop processes ("ticks"): the rightmost
wheel always ticks, and a wheel further left ticks exactly when every wheel
to its right wrapped.  Lists rightmost-first. -/
def tickedRev : List (List Nat) → List Nat → Nat
  | s :: ms, p :: ps => if p + 1 = s.length then 1 + tickedRev ms ps else 1
  | _, _ => 0

/-- `Mask::getLen`: 0 for an empty mask (`m_len` is initialised to 0 and the
first `push_charset*` overwrites it), otherwise the product of the charset
lengths. -/
def maskLen (m : List (List Nat)) : Nat :=
  match m with
  | [] => 0
  | _ :: _ => (m.map List.length).prod

/-- `Mask::setPosition`: return unchanged cursors when `m_len == 0`,
otherwise reduce `o` modulo the length and distribute it over the wheels
from the right. -/
def maskSetPosition (m : List (List Nat)) (st : List Nat) (o : Nat) : List Nat :=
  if maskLen m = 0 then st
  else
    let o' := if o ≥ maskLen m then o % maskLen m else o
    (setPosRev m.reverse o').reverse

/-- `Mask::getCurrent`: fill the word buffer with each charset's current
element (left to right). -/
def maskCurrent (m : List (List Nat)) (st : List Nat) : List Nat :=
  List.zipWith (fun s p => s.getD p 0) m st

/-- `Mask::getNext` lifted to left-to-right lists: returns
(new cursors, new word buffer, carry out). -/
def maskGetNext (m : List (List Nat)) (st buf : List Nat) :
    List Nat × List Nat × Bool :=
  let r := getNextRev m.reverse st.reverse buf.reverse
  (r.1.reverse, r.2.1.reverse, r.2.2)

/-- State transition of one `Mask::getNext` call (the cursor part only). -/
def maskAdvance (m : List (List Nat)) (st : List Nat) : List Nat :=
  (advanceRev m.reverse st.reverse).1.reverse

/-- Word read at enumeration index `o` of a mask: `setPosition o` from any
cursor state, then `getCurrent`. -/
def wordAt (m : List (List Nat)) (o : Nat) : List Nat :=
  maskCurrent m (maskSetPosition m (List.replicate m.length 0) o)

/-! ### Basic facts about the odometer -/

lemma lenRev_cons (s : List Nat) (ms : List (List Nat)) :
    lenRev (s :: ms) = s.length * lenRev ms := by
  simp [lenRev]

lemma lenRev_pos {msr : List (List Nat)} (h : ∀ s ∈ msr, s ≠ []) :
    0 < lenRev msr := by
  induction msr with
  | nil => simp [lenRev]
  | cons s ms ih =>
    rw [lenRev_cons]
    have hs : 0 < s.length := List.length_pos.mpr (h s (by simp))
    exact Nat.mul_pos hs (ih fun t ht => h t (by simp [ht]))

lemma setPosRev_length (msr : List (List Nat)) (o : Nat) :
    (setPosRev msr o).length = msr.length := by
  induction msr generalizing o with
  | nil => rfl
  | cons s ms ih => simp [setPosRev, ih]

/-- One `getNext` on the cursor state reached by `setPosition o` yields the
cursor state of `setPosition (o+1)` (rolling over to position 0 with a carry
at the end of the mask). -/
lemma advanceRev_setPosRev {msr : List (List Nat)} (h : ∀ s ∈ msr, s ≠ [])
    {o : Nat} (ho : o < lenRev msr) :
    advanceRev msr (setPosRev msr o) =
      if o + 1 = lenRev msr then (setPosRev msr 0, true)
      else (setPosRev msr (o + 1), false) := by
  induction msr generalizing o with
  | nil =>
    have h0 : o = 0 := by simpa [lenRev] using ho
    subst h0
    simp [advanceRev, setPosRev, lenRev]
  | cons s ms ih =>
    have hL : 0 < s.length := List.length_pos.mpr (h s (by simp))
    have hM : 0 < lenRev ms := lenRev_pos fun t ht => h t (by simp [ht])
    rw [lenRev_cons] at ho
    have hdm := Nat.div_add_mod o s.length
    have hmlt : o % s.length < s.length := Nat.mod_lt _ hL
    rw [lenRev_cons]
    show advanceRev (s :: ms) (o % s.length :: setPosRev ms (o / s.length)) = _
    by_cases hp : o % s.length + 1 = s.length
    · -- the rightmost wheel wraps and carries
      have hq : o / s.length < lenRev ms :=
        (Nat.div_lt_iff_lt_mul hL).mpr (by rw [Nat.mul_comm]; exact ho)
      have key : o + 1 = s.length * (o / s.length + 1) := by
        rw [Nat.mul_add, Nat.mul_one]; omega
      rw [advanceRev, if_pos hp, ih (fun t ht => h t (by simp [ht])) hq]
      by_cases htop : o + 1 = s.length * lenRev ms
      · have hqtop : o / s.length + 1 = lenRev ms :=
          Nat.eq_of_mul_eq_mul_left hL (by rw [← key]; exact htop)
        rw [if_pos hqtop, if_pos htop]
        simp [setPosRev, Nat.zero_mod, Nat.zero_div]
      · have hqtop : ¬ (o / s.length + 1 = lenRev ms) := fun hc => htop (by rw [key, hc])
        rw [if_neg hqtop, if_neg htop]
        have hmod : (o + 1) % s.length = 0 := by rw [key]; exact Nat.mul_mod_right _ _
        have hdiv : (o + 1) / s.length = o / s.length + 1 := by
          rw [key]; exact Nat.mul_div_cancel_left _ hL
        simp [setPosRev, hmod, hdiv]
    · -- the rightmost wheel does not wrap: nothing else is touched
      have hplt : o % s.length + 1 < s.length := lt_of_le_of_ne hmlt hp
      have htop : ¬ (o + 1 = s.length * lenRev ms) := by
        intro hc
        have h1 : o + 1 = (o % s.length + 1) + s.length * (o / s.length) := by omega
        have hmod : (o + 1) % s.length = o % s.length + 1 := by
          rw [h1, Nat.add_mul_mod_self_left, Nat.mod_eq_of_lt hplt]
        rw [hc, Nat.mul_mod_right] at hmod
        omega
      rw [advanceRev, if_neg hp, if_neg htop]
      have h1 : o + 1 = (o % s.length + 1) + s.length * (o / s.length) := by omega
      have hmod : (o + 1) % s.length = o % s.length + 1 := by
        rw [h1, Nat.add_mul_mod_self_left, Nat.mod_eq_of_lt hplt]
      have hdiv : (o + 1) / s.length = o / s.length := by
        rw [h1, Nat.add_mul_div_left _ _ hL, Nat.div_eq_of_lt hplt, Nat.zero_add]
      simp [setPosRev, hmod, hdiv]

/-- The cursor component and the carry of `getNextRev` agree with the
state-only `advanceRev` whenever the buffer has the right length. -/
lemma getNextRev_state (msr : List (List Nat)) (psr bsr : List Nat)
    (hb : bsr.length = psr.length) :
    (getNextRev msr psr bsr).1 = (advanceRev msr psr).1 ∧
      (getNextRev msr psr bsr).2.2 = (advanceRev msr psr).2 := by
  induction msr generalizing psr bsr with
  | nil =>
    cases psr with
    | nil =>
      cases bsr with
      | nil => exact ⟨rfl, rfl⟩
      | cons b bs => simp at hb
    | cons p ps =>
      cases bsr with
      | nil => simp at hb
      | cons b bs => exact ⟨rfl, rfl⟩
  | cons s ms ih =>
    cases psr with
    | nil =>
      cases bsr with
      | nil => exact ⟨rfl, rfl⟩
      | cons b bs => simp at hb
    | cons p ps =>
      cases bsr with
      | nil => simp at hb
      | cons b bs =>
        have hb' : bs.length = ps.length := by simpa using hb
        by_cases hp : p + 1 = s.length
        · have := ih ps bs hb'
          simp only [getNextRev, advanceRev, if_pos hp]
          exact ⟨by rw [this.1], by rw [this.2]⟩
        · simp [getNextRev, advanceRev, if_neg hp]

/-- If the buffer holds the current word, `getNext` updates it to the
current word of the new cursor state. -/
lemma getNextRev_buffer (msr : List (List Nat)) (psr : List Nat)
    (hp : psr.length = msr.length) :
    (getNextRev msr psr (currentRev msr psr)).2.1 =
      currentRev msr (advanceRev msr psr).1 := by
  induction msr generalizing psr with
  | nil =>
    cases psr with
    | nil => rfl
    | cons p ps => simp at hp
  | cons s ms ih =>
    cases psr with
    | nil => simp at hp
    | cons p ps =>
      have hp' : ps.length = ms.length := by simpa using hp
      by_cases hw : p + 1 = s.length
      · simp only [currentRev, List.zipWith_cons_cons, getNextRev, advanceRev, if_pos hw]
        rw [show (List.zipWith (fun s p => s.getD p 0) ms ps) =
              currentRev ms ps from rfl, ih ps hp']
        rfl
      · simp only [currentRev, List.zipWith_cons_cons, getNextRev, advanceRev, if_neg hw]

lemma advanceRev_fst_length (msr : List (List Nat)) (psr : List Nat) :
    (advanceRev msr psr).1.length = psr.length := by
  induction msr generalizing psr with
  | nil => rfl
  | cons s ms ih =>
    cases psr with
    | nil => rfl
    | cons p ps =>
      by_cases hw : p + 1 = s.length
      · simp [advanceRev, if_pos hw, ih]
      · simp [advanceRev, if_neg hw]

lemma getNextRev_lengths (msr : List (List Nat)) (psr bsr : List Nat) :
    (getNextRev msr psr bsr).1.length = psr.length ∧
      (getNextRev msr psr bsr).2.1.length = bsr.length := by
  induction msr generalizing psr bsr with
  | nil => exact ⟨rfl, rfl⟩
  | cons s ms ih =>
    cases psr with
    | nil => exact ⟨rfl, rfl⟩
    | cons p ps =>
      cases bsr with
      | nil => exact ⟨rfl, rfl⟩
      | cons b bs =>
        by_cases hw : p + 1 = s.length
        · have := ih ps bs
          simp [getNextRev, if_pos hw, this.1, this.2]
        · simp [getNextRev, if_neg hw]

lemma tickedRev_le (msr : List (List Nat)) (psr : List Nat) :
    tickedRev msr psr ≤ msr.length := by
  induction msr generalizing psr with
  | nil => cases psr <;> simp [tickedRev]
  | cons s ms ih =>
    cases psr with
    | nil => simp [tickedRev]
    | cons p ps =>
      by_cases hw : p + 1 = s.length
      · simp only [tickedRev, if_pos hw, List.length_cons]
        have := ih ps
        omega
      · simp [tickedRev, if_neg hw]

/-- Cursors and buffer entries beyond the run of ticked wheels are left
untouched by `getNext` (reversed coordinates: the ticked wheels are a prefix). -/
lemma getNextRev_drop (msr : List (List Nat)) (psr bsr : List Nat) :
    (getNextRev msr psr bsr).1.drop (tickedRev msr psr) =
        psr.drop (tickedRev msr psr) ∧
      (getNextRev msr psr bsr).2.1.drop (tickedRev msr psr) =
        bsr.drop (tickedRev msr psr) := by
  induction msr generalizing psr bsr with
  | nil => cases psr <;> cases bsr <;> simp [getNextRev, tickedRev]
  | cons s ms ih =>
    cases psr with
    | nil => simp [getNextRev, tickedRev]
    | cons p ps =>
      cases bsr with
      | nil => simp [getNextRev, tickedRev]
      | cons b bs =>
        by_cases hw : p + 1 = s.length
        · have := ih ps bs
          simp only [getNextRev, tickedRev, if_pos hw, Nat.add_comm 1 (tickedRev ms ps),
            List.drop_succ_cons]
          exact this
        · simp [getNextRev, tickedRev, if_neg hw]

/-- Every ticked wheel's buffer entry is written with the charset element at
the wheel's new cursor (reversed coordinates). -/
lemma getNextRev_written (msr : List (List Nat)) (psr bsr : List Nat)
    (hb : bsr.length = psr.length)
    {j : Nat} (hj : j < tickedRev msr psr) :
    (getNextRev msr psr bsr).2.1.getD j 0 =
      (msr.getD j []).getD ((getNextRev msr psr bsr).1.getD j 0) 0 := by
  induction msr generalizing psr bsr j with
  | nil =>
    exfalso
    cases psr <;> simp [tickedRev] at hj
  | cons s ms ih =>
    cases psr with
    | nil => simp [tickedRev] at hj
    | cons p ps =>
      cases bsr with
      | nil => simp at hb
      | cons b bs =>
        have hb' : bs.length = ps.length := by simpa using hb
        by_cases hw : p + 1 = s.length
        · rw [tickedRev, if_pos hw] at hj
          cases j with
          | zero => simp [getNextRev, if_pos hw]
          | succ j' =>
            have hj' : j' < tickedRev ms ps := by omega
            simpa [getNextRev, if_pos hw] using ih ps bs hb' hj'
        · rw [tickedRev, if_neg hw] at hj
          interval_cases j
          simp [getNextRev, if_neg hw]

lemma getD_reverse {α : Type} (l : List α) (d : α) {i : Nat} (h : i < l.length) :
    l.reverse.getD i d = l.getD (l.length - 1 - i) d := by
  have h1 : i < l.reverse.length := by simpa using h
  have h2 : l.length - 1 - i < l.length := by omega
  rw [List.getD_eq_getElem?_getD, List.getD_eq_getElem?_getD,
    List.getElem?_eq_getElem h1, List.getElem?_eq_getElem h2]
  simp

lemma maskLen_eq_lenRev {m : List (List Nat)} (hm : m ≠ []) :
    maskLen m = lenRev m.reverse := by
  match m, hm with
  | c :: cs, _ =>
    show ((c :: cs).map List.length).prod = lenRev (c :: cs).reverse
    simp [lenRev, List.prod_reverse, Nat.mul_comm]

/-- While `setPosition o` stays strictly below the mask length, applying the
advance `o` times from position 0 lands exactly on the cursors of
`setPosition o`. -/
lemma iterate_maskAdvance (m : List (List Nat)) (st : List Nat)
    (hne : ∀ s ∈ m, s ≠ []) (hlen : 0 < maskLen m)
    {o : Nat} (ho : o < maskLen m) :
    (maskAdvance m)^[o] (maskSetPosition m st 0) = (setPosRev m.reverse o).reverse := by
  have hm : m ≠ [] := by
    intro h
    rw [h] at hlen
    simp [maskLen] at hlen
  have hrevne : ∀ s ∈ m.reverse, s ≠ [] := fun s hs => hne s (List.mem_reverse.mp hs)
  have hml : maskLen m = lenRev m.reverse := maskLen_eq_lenRev hm
  induction o with
  | zero =>
    rw [Function.iterate_zero_apply, maskSetPosition, if_neg (by omega)]
    have : ¬ (0 ≥ maskLen m) := by omega
    simp [this]
  | succ i ih =>
    have hi : i < maskLen m := by omega
    rw [Function.iterate_succ_apply', ih hi, maskAdvance, List.reverse_reverse]
    rw [advanceRev_setPosRev hrevne (by omega : i < lenRev m.reverse)]
    have : ¬ (i + 1 = lenRev m.reverse) := by omega
    rw [if_neg this]

/-- Claim C1: for every mask `M` with `M.len > 0` and every index
`o ∈ [0, M.len)`, `M.set_position(o); M.current(word)` fills the word with
exactly the same codepoints as `M.set_position(0)` followed by `o` advances
and then `M.current(word)` — indeed the cursor states themselves coincide. -/
theorem C1_setPosition_eq_iterated_advance (m : List (List Nat)) (st : List Nat)
    (hne : ∀ s ∈ m, s ≠ []) (hlen : 0 < maskLen m)
    {o : Nat} (ho : o < maskLen m) :
    maskSetPosition m st o = (maskAdvance m)^[o] (maskSetPosition m st 0) ∧
      maskCurrent m (maskSetPosition m st o) =
        maskCurrent m ((maskAdvance m)^[o] (maskSetPosition m st 0)) := by
  have hstate : maskSetPosition m st o = (setPosRev m.reverse o).reverse := by
    rw [maskSetPosition, if_neg (by omega)]
    have : ¬ (o ≥ maskLen m) := by omega
    simp [this]
  have h2 := iterate_maskAdvance m st hne hlen ho
  refine ⟨by rw [hstate, h2], by rw [hstate, h2]⟩

/-- Witness for C1 at a concrete mask (`[12] × [3,4,5]`, index 4). -/
theorem C1_setPosition_eq_iterated_advance_witness :
    (∀ s ∈ [[1, 2], [3, 4, 5]], s ≠ []) ∧ 0 < maskLen [[1, 2], [3, 4, 5]] ∧
      4 < maskLen [[1, 2], [3, 4, 5]] ∧
      (maskSetPosition [[1, 2], [3, 4, 5]] [0, 0] 4 =
          (maskAdvance [[1, 2], [3, 4, 5]])^[4]
            (maskSetPosition [[1, 2], [3, 4, 5]] [0, 0] 0) ∧
        maskCurrent [[1, 2], [3, 4, 5]] (maskSetPosition [[1, 2], [3, 4, 5]] [0, 0] 4) =
          maskCurrent [[1, 2], [3, 4, 5]]
            ((maskAdvance [[1, 2], [3, 4, 5]])^[4]
              (maskSetPosition [[1, 2], [3, 4, 5]] [0, 0] 0))) :=
  ⟨by decide, by decide, by decide,
    C1_setPosition_eq_iterated_advance [[1, 2], [3, 4, 5]] [0, 0]
      (by decide) (by decide) (by decide)⟩

/-- Claim C7: for every charset `s` (non-empty by construction) and every
integer `o`, `set_position(o)` never fails and sets the cursor to
`o mod len`, and a following `current()` returns the element of `s` at
index `o mod len`. -/
theorem C7_charset_setPosition_current (s : List Nat) (h : s ≠ []) (o : Nat) :
    csSetPosition s o = o % s.length ∧
      csGetCurrent s (csSetPosition s o) =
        s.get ⟨o % s.length, Nat.mod_lt o (List.length_pos.mpr h)⟩ := by
  have hlen : 0 < s.length := List.length_pos.mpr h
  have hpos : csSetPosition s o = o % s.length := by
    rw [csSetPosition]
    by_cases hl : o ≥ s.length
    · rw [if_pos hl]
    · rw [if_neg hl, Nat.mod_eq_of_lt (by omega)]
  refine ⟨hpos, ?_⟩
  rw [hpos, csGetCurrent, List.getD_eq_getElem?_getD,
    List.getElem?_eq_getElem (Nat.mod_lt o hlen)]
  simp

/-- Witness for C7 at the charset `[3,4,5]` and position 7. -/
theorem C7_charset_setPosition_current_witness :
    ([3, 4, 5] : List Nat) ≠ [] ∧
      (csSetPosition [3, 4, 5] 7 = 7 % 3 ∧
        csGetCurrent [3, 4, 5] (csSetPosition [3, 4, 5] 7) =
          ([3, 4, 5] : List Nat).get ⟨7 % 3, by decide⟩) :=
  ⟨by decide, C7_charset_setPosition_current [3, 4, 5] (by decide) 7⟩

/-- Number of wheels ticked by one `Mask::getNext` call: the length of the
rightmost run of wheels through which the carry propagated. -/
def tickedCount (m : List (List Nat)) (st : List Nat) : Nat :=
  tickedRev m.reverse st.reverse

/-- Claim C8: one `Mask::getNext` call writes only the buffer positions whose
odometer wheel ticked (the rightmost run of wheels reached by the carry);
all other positions of the buffer — and the corresponding cursors — keep
their previous contents, and every ticked position is written with the
charset element at its new cursor. -/
theorem C8_getNext_frame (m : List (List Nat)) (st buf : List Nat)
    (hst : st.length = m.length) (hbuf : buf.length = m.length) :
    tickedCount m st ≤ m.length ∧
      (maskGetNext m st buf).2.1.take (m.length - tickedCount m st) =
        buf.take (m.length - tickedCount m st) ∧
      (maskGetNext m st buf).1.take (m.length - tickedCount m st) =
        st.take (m.length - tickedCount m st) ∧
      (∀ i, m.length - tickedCount m st ≤ i → i < m.length →
        (maskGetNext m st buf).2.1.getD i 0 =
          (m.getD i []).getD ((maskGetNext m st buf).1.getD i 0) 0) := by
  have hkeq : tickedCount m st = tickedRev m.reverse st.reverse := rfl
  have hk : tickedCount m st ≤ m.length := by
    have := tickedRev_le m.reverse st.reverse
    simpa [hkeq] using this
  have hRlen := getNextRev_lengths m.reverse st.reverse buf.reverse
  have hR1 : (getNextRev m.reverse st.reverse buf.reverse).1.length = m.length := by
    rw [hRlen.1]; simpa using hst
  have hR2 : (getNextRev m.reverse st.reverse buf.reverse).2.1.length = m.length := by
    rw [hRlen.2]; simpa using hbuf
  have hdrop := getNextRev_drop m.reverse st.reverse buf.reverse
  rw [hkeq]
  refine ⟨hk, ?_, ?_, ?_⟩
  · -- buffer frame
    show (getNextRev m.reverse st.reverse buf.reverse).2.1.reverse.take
        (m.length - tickedRev m.reverse st.reverse) = _
    rw [List.take_reverse, hR2,
      show m.length - (m.length - tickedRev m.reverse st.reverse) =
        tickedRev m.reverse st.reverse from by rw [hkeq] at hk; omega,
      hdrop.2, List.drop_reverse,
      show buf.length - tickedRev m.reverse st.reverse =
        m.length - tickedRev m.reverse st.reverse from by rw [hbuf],
      List.reverse_reverse]
  · -- cursor frame
    show (getNextRev m.reverse st.reverse buf.reverse).1.reverse.take
        (m.length - tickedRev m.reverse st.reverse) = _
    rw [List.take_reverse, hR1,
      show m.length - (m.length - tickedRev m.reverse st.reverse) =
        tickedRev m.reverse st.reverse from by rw [hkeq] at hk; omega,
      hdrop.1, List.drop_reverse,
      show st.length - tickedRev m.reverse st.reverse =
        m.length - tickedRev m.reverse st.reverse from by rw [hst],
      List.reverse_reverse]
  · -- ticked positions are written
    intro i hi1 hi2
    have hj : m.length - 1 - i < tickedRev m.reverse st.reverse := by
      omega
    have hwr := getNextRev_written m.reverse st.reverse buf.reverse
      (by simp [hst, hbuf]) hj
    show (getNextRev m.reverse st.reverse buf.reverse).2.1.reverse.getD i 0 = _
    rw [getD_reverse _ _ (by omega : i < (getNextRev m.reverse st.reverse buf.reverse).2.1.length),
      hR2, hwr]
    have hmj : m.reverse.getD (m.length - 1 - i) [] = m.getD i [] := by
      rw [getD_reverse _ _ (by omega : m.length - 1 - i < m.length)]
      congr 1
      omega
    have hpj : (getNextRev m.reverse st.reverse buf.reverse).1.getD (m.length - 1 - i) 0 =
        (maskGetNext m st buf).1.getD i 0 := by
      show _ = (getNextRev m.reverse st.reverse buf.reverse).1.reverse.getD i 0
      rw [getD_reverse _ _ (by omega : i < (getNextRev m.reverse st.reverse buf.reverse).1.length),
        hR1]
    rw [hmj, hpj]

/-- Witness for C8 at the mask `[[1,2],[5],[7,8]]`, cursors `[0,0,1]`
(the rightmost wheel wraps, the middle wheel wraps, the left wheel ticks),
buffer pre-poisoned with 9s. -/
theorem C8_getNext_frame_witness :
    tickedCount [[1, 2], [5], [7, 8]] [0, 0, 1] ≤ 3 ∧
      (maskGetNext [[1, 2], [5], [7, 8]] [0, 0, 1] [9, 9, 9]).2.1.take
          (3 - tickedCount [[1, 2], [5], [7, 8]] [0, 0, 1]) =
        [9, 9, 9].take (3 - tickedCount [[1, 2], [5], [7, 8]] [0, 0, 1]) ∧
      (maskGetNext [[1, 2], [5], [7, 8]] [0, 0, 1] [9, 9, 9]).1.take
          (3 - tickedCount [[1, 2], [5], [7, 8]] [0, 0, 1]) =
        [0, 0, 1].take (3 - tickedCount [[1, 2], [5], [7, 8]] [0, 0, 1]) ∧
      (∀ i, 3 - tickedCount [[1, 2], [5], [7, 8]] [0, 0, 1] ≤ i → i < 3 →
        (maskGetNext [[1, 2], [5], [7, 8]] [0, 0, 1] [9, 9, 9]).2.1.getD i 0 =
          ([[1, 2], [5], [7, 8]].getD i []).getD
            ((maskGetNext [[1, 2], [5], [7, 8]] [0, 0, 1] [9, 9, 9]).1.getD i 0) 0) :=
  C8_getNext_frame [[1, 2], [5], [7, 8]] [0, 0, 1] [9, 9, 9] (by decide) (by decide)

/-! ## The emission pass of `work` (main.cpp)

`work` runs the generator twice.  The counting pass sums the mask lengths
(modelled by `countChecked` below); the emission pass skips whole masks
until the start index is reached, then streams words using `setPosition`,
`getCurrent` and `getNext`.  The masks a generator yields are modelled as
the list of masks it would produce in order. -/

/-- Fresh cursor state of a mask: the `Charset` constructor starts each
cursor at the first element. -/
def freshState (m : List (List Nat)) : List Nat :=
  List.replicate m.length 0

/-- Words of one mask in enumeration order. -/
def maskWords (m : List (List Nat)) : List (List Nat) :=
  (List.range (maskLen m)).map (wordAt m)

/-- All words of a run, over the masks the generator yields, in order. -/
def allWords (masks : List (List (List Nat))) : List (List Nat) :=
  masks.flatMap maskWords

/-- Total word count of a run (mathematical sum; the overflow-checked
counting pass is modelled by `countChecked`). -/
def totalLen (masks : List (List (List Nat))) : Nat :=
  (masks.map maskLen).sum

/-- The inner emission loop: `n` successive `getNext` calls on the word
buffer, collecting the buffer contents after each call. -/
def iterWords (m : List (List Nat)) : List Nat → List Nat → Nat → List (List Nat)
  | _, _, 0 => []
  | st, buf, n + 1 =>
    let r := maskGetNext m st buf
    r.2.1 :: iterWords m r.1 r.2.1 n

/-- One mask's contribution to the emission pass: `setPosition(start)`, one
`getCurrent` for the first word, then `getNext` for the following ones
(`chunk` words in total). -/
def emitChunk (m : List (List Nat)) (start chunk : Nat) : List (List Nat) :=
  if chunk = 0 then []
  else
    let st := maskSetPosition m (freshState m) start
    let w := maskCurrent m st
    w :: iterWords m st w (chunk - 1)

/-- The `while (todo)` loop of `work`: emit
`chunk = min(todo, len - start)` words of the current mask, then pull the
next mask and continue at position 0. -/
def emitCurrent : List (List Nat) → List (List (List Nat)) → Nat → Nat → List (List Nat)
  | m, [], start, todo =>
    if todo = 0 then []
    else
      emitChunk m start (min todo (maskLen m - start)) ++
        (if todo - min todo (maskLen m - start) ≠ 0 then [] else [])
  | m, m' :: ms', start, todo =>
    if todo = 0 then []
    else
      emitChunk m start (min todo (maskLen m - start)) ++
        (if todo - min todo (maskLen m - start) ≠ 0 then
          emitCurrent m' ms' 0 (todo - min todo (maskLen m - start))
        else [])

/-- The skip loop of `work` (`while (start_idx) ...`) followed by the
emission loop: pull masks and subtract their lengths while the start index
is not inside the pulled mask; when the start index hits 0 exactly, pull a
fresh mask. -/
def emitRun : List (List (List Nat)) → Nat → Nat → List (List Nat)
  | [], _, _ => []
  | m :: ms, start, todo =>
    if start = 0 then emitCurrent m ms 0 todo
    else if start ≥ maskLen m then emitRun ms (start - maskLen m) todo
    else emitCurrent m ms start todo

/-- `digits m o`: cursors of the mask after `setPosition o` from the fresh
state (used to relate the emission loop to `wordAt`). -/
def digits (m : List (List Nat)) (o : Nat) : List Nat :=
  maskSetPosition m (freshState m) o

lemma zipWith_reverse_eq {α β γ : Type} (f : α → β → γ) :
    ∀ (l1 : List α) (l2 : List β), l1.length = l2.length →
      (List.zipWith f l1 l2).reverse = List.zipWith f l1.reverse l2.reverse
  | [], [], _ => rfl
  | a :: as, b :: bs, h => by
    have h' : as.length = bs.length := by simpa using h
    have hrev : as.reverse.length = bs.reverse.length := by simpa using h'
    rw [List.zipWith_cons_cons, List.reverse_cons, List.reverse_cons, List.reverse_cons,
      List.zipWith_append _ _ _ _ _ hrev, zipWith_reverse_eq f as bs h']
    rfl

lemma digits_eq {m : List (List Nat)} (hpos : 0 < maskLen m) {o : Nat}
    (ho : o < maskLen m) : digits m o = (setPosRev m.reverse o).reverse := by
  rw [digits, maskSetPosition, if_neg (by omega)]
  have : ¬ (o ≥ maskLen m) := by omega
  simp [this]

lemma digits_length {m : List (List Nat)} (hpos : 0 < maskLen m) {o : Nat}
    (ho : o < maskLen m) : (digits m o).length = m.length := by
  rw [digits_eq hpos ho]
  simp [setPosRev_length]

lemma maskCurrent_reverse {m : List (List Nat)} {st : List Nat}
    (h : st.length = m.length) :
    (maskCurrent m st).reverse = currentRev m.reverse st.reverse := by
  rw [maskCurrent, currentRev, zipWith_reverse_eq _ _ _ h.symm]

/-- A `getNext` call at enumeration position `o` (cursors `digits m o`,
buffer holding the word at `o`) moves to position `o+1` and rewrites the
buffer to the word at `o+1`, provided `o+1` is still inside the mask. -/
lemma maskGetNext_digits {m : List (List Nat)} (hne : ∀ s ∈ m, s ≠ [])
    {o : Nat} (ho : o + 1 < maskLen m) :
    maskGetNext m (digits m o) (wordAt m o) = (digits m (o + 1), wordAt m (o + 1), false) := by
  have hpos : 0 < maskLen m := by omega
  have hm : m ≠ [] := by
    intro h
    rw [h] at hpos
    simp [maskLen] at hpos
  have hml : maskLen m = lenRev m.reverse := maskLen_eq_lenRev hm
  have hrevne : ∀ s ∈ m.reverse, s ≠ [] := fun s hs => hne s (List.mem_reverse.mp hs)
  have hdig : digits m o = (setPosRev m.reverse o).reverse := digits_eq hpos (by omega)
  have hdig' : digits m (o + 1) = (setPosRev m.reverse (o + 1)).reverse := digits_eq hpos ho
  have hplen : (setPosRev m.reverse o).length = m.reverse.length := setPosRev_length _ _
  have hstlen : (digits m o).length = m.length := digits_length hpos (by omega)
  have hbufrev : (wordAt m o).reverse = currentRev m.reverse (setPosRev m.reverse o) := by
    rw [wordAt, show maskSetPosition m (List.replicate m.length 0) o = digits m o from rfl,
      maskCurrent_reverse hstlen, hdig, List.reverse_reverse]
  have hadv : advanceRev m.reverse (setPosRev m.reverse o) =
      (setPosRev m.reverse (o + 1), false) := by
    rw [advanceRev_setPosRev hrevne (by omega : o < lenRev m.reverse)]
    exact if_neg (by omega)
  have hstate := getNextRev_state m.reverse (setPosRev m.reverse o)
    (currentRev m.reverse (setPosRev m.reverse o))
    (by simp [currentRev, hplen])
  have hbuf := getNextRev_buffer m.reverse (setPosRev m.reverse o) hplen
  rw [maskGetNext, hdig, List.reverse_reverse, hbufrev]
  have h1 : (getNextRev m.reverse (setPosRev m.reverse o)
      (currentRev m.reverse (setPosRev m.reverse o))).1 = setPosRev m.reverse (o + 1) := by
    rw [hstate.1, hadv]
  have h2 : (getNextRev m.reverse (setPosRev m.reverse o)
      (currentRev m.reverse (setPosRev m.reverse o))).2.2 = false := by
    rw [hstate.2, hadv]
  have h3 : (getNextRev m.reverse (setPosRev m.reverse o)
      (currentRev m.reverse (setPosRev m.reverse o))).2.1 =
      currentRev m.reverse (setPosRev m.reverse (o + 1)) := by
    rw [hbuf, hadv]
  rw [h1, h2, h3, hdig']
  have harg : (digits m (o + 1)).reverse = setPosRev m.reverse (o + 1) := by
    rw [hdig', List.reverse_reverse]
  have hword : (currentRev m.reverse (setPosRev m.reverse (o + 1))).reverse =
      wordAt m (o + 1) := by
    rw [← harg, ← maskCurrent_reverse (digits_length hpos ho), List.reverse_reverse]
    rfl
  rw [hword]

lemma iterWords_eq {m : List (List Nat)} (hne : ∀ s ∈ m, s ≠ []) :
    ∀ (n o : Nat), o + n < maskLen m →
      iterWords m (digits m o) (wordAt m o) n =
        (List.range n).map (fun i => wordAt m (o + 1 + i))
  | 0, o, _ => rfl
  | n + 1, o, h => by
    have h1 : o + 1 < maskLen m := by omega
    rw [iterWords, maskGetNext_digits hne h1]
    have h2 : (o + 1) + n < maskLen m := by omega
    rw [iterWords_eq hne n (o + 1) h2]
    rw [List.range_succ_eq_map, List.map_cons, List.map_map]
    refine congrArg₂ _ (by rw [Nat.add_zero]) ?_
    apply List.map_congr_left
    intro i _
    show wordAt m (o + 1 + 1 + i) = wordAt m (o + 1 + (i + 1))
    congr 1
    omega

lemma emitChunk_eq {m : List (List Nat)} (hne : ∀ s ∈ m, s ≠ [])
    {start chunk : Nat} (hb : start + chunk ≤ maskLen m) :
    emitChunk m start chunk = (List.range chunk).map (fun i => wordAt m (start + i)) := by
  match chunk with
  | 0 => rfl
  | c + 1 =>
    rw [emitChunk, if_neg (by omega)]
    show wordAt m start :: iterWords m (digits m start) (wordAt m start) c = _
    rw [iterWords_eq hne c start (by omega)]
    rw [List.range_succ_eq_map, List.map_cons, List.map_map]
    refine congrArg₂ _ (by rw [Nat.add_zero]) ?_
    apply List.map_congr_left
    intro i _
    show wordAt m (start + 1 + i) = wordAt m (start + (i + 1))
    congr 1
    omega

lemma maskWords_length (m : List (List Nat)) : (maskWords m).length = maskLen m := by
  simp [maskWords]

lemma allWords_cons (m : List (List Nat)) (ms : List (List (List Nat))) :
    allWords (m :: ms) = maskWords m ++ allWords ms := by
  simp [allWords]

lemma totalLen_cons (m : List (List Nat)) (ms : List (List (List Nat))) :
    totalLen (m :: ms) = maskLen m + totalLen ms := by
  simp [totalLen]

/-- The chunk emitted from one mask is the corresponding slice of the mask's
word list. -/
lemma emitChunk_slice {m : List (List Nat)} (hne : ∀ s ∈ m, s ≠ [])
    {start chunk : Nat} (hb : start + chunk ≤ maskLen m) :
    emitChunk m start chunk = ((maskWords m).drop start).take chunk := by
  rw [emitChunk_eq hne hb, maskWords]
  have hsplit : maskLen m = start + (maskLen m - start) := by omega
  conv_rhs => rw [hsplit, List.range_add, List.map_append]
  rw [List.drop_append_eq_append_drop]
  have hlen1 : ((List.range start).map (wordAt m)).length = start := by simp
  rw [List.drop_of_length_le (le_of_eq hlen1), hlen1, List.nil_append, Nat.sub_self,
    List.drop_zero, List.map_map, ← List.map_take, List.take_range,
    show min chunk (maskLen m - start) = chunk from by omega]
  apply List.map_congr_left
  intro i _
  rfl

/-- The `while (todo)` emission loop produces exactly the `todo`-word slice
starting `start` words into the current mask. -/
lemma emitCurrent_slice :
    ∀ (ms : List (List (List Nat))) (m : List (List Nat)) (start todo : Nat),
      (∀ s ∈ m, s ≠ []) → (∀ mk ∈ ms, ∀ s ∈ mk, s ≠ []) →
      (start < maskLen m ∨ start = 0) →
      start + todo ≤ maskLen m + totalLen ms →
      emitCurrent m ms start todo = ((maskWords m ++ allWords ms).drop start).take todo
  | [], m, start, todo, hm, _, _, hbudget => by
    rw [emitCurrent]
    by_cases h0 : todo = 0
    · rw [if_pos h0, h0, List.take_zero]
    · rw [if_neg h0]
      have htot : totalLen ([] : List (List (List Nat))) = 0 := rfl
      have hchunkval : min todo (maskLen m - start) = todo := by omega
      rw [hchunkval, if_neg (by omega), List.append_nil,
        emitChunk_slice hm (by omega),
        show allWords ([] : List (List (List Nat))) = [] from rfl, List.append_nil]
  | m' :: ms', m, start, todo, hm, hms, hstart, hbudget => by
    rw [emitCurrent]
    by_cases h0 : todo = 0
    · rw [if_pos h0, h0, List.take_zero]
    rw [if_neg h0]
    have hsle : start ≤ maskLen m := by
      rcases hstart with h | h
      · omega
      · omega
    have htotc : totalLen (m' :: ms') = maskLen m' + totalLen ms' := totalLen_cons m' ms'
    have hchunk : start + min todo (maskLen m - start) ≤ maskLen m := by omega
    rw [emitChunk_slice hm hchunk]
    have hdropA : ((maskWords m ++ allWords (m' :: ms')).drop start) =
        (maskWords m).drop start ++ allWords (m' :: ms') := by
      rw [List.drop_append_eq_append_drop,
        show start - (maskWords m).length = 0 from by rw [maskWords_length]; omega,
        List.drop_zero]
    have hlenA : ((maskWords m).drop start).length = maskLen m - start := by
      rw [List.length_drop, maskWords_length]
    by_cases hrem : todo - min todo (maskLen m - start) ≠ 0
    · -- the current mask is exhausted before `todo` runs out
      have hlt : maskLen m - start < todo := by omega
      have hchunkval : min todo (maskLen m - start) = maskLen m - start := by omega
      rw [if_pos hrem, hdropA, List.take_append_eq_append_take]
      refine congrArg₂ _ ?_ ?_
      · rw [hchunkval, List.take_of_length_le (le_of_eq hlenA),
          List.take_of_length_le (by rw [hlenA]; omega)]
      · rw [emitCurrent_slice ms' m' 0 (todo - min todo (maskLen m - start))
          (hms m' (by simp)) (fun mk hmk => hms mk (by simp [hmk])) (Or.inr rfl)
          (by omega),
          List.drop_zero, allWords_cons, hlenA, hchunkval]
    · -- everything still fits into the current mask
      rw [if_neg hrem]
      have hchunkval : min todo (maskLen m - start) = todo := by omega
      rw [hchunkval, List.append_nil, hdropA, List.take_append_of_le_length
        (by rw [hlenA]; omega)]

/-- The skip loop plus the emission loop produce exactly the words with
enumeration indices in `[start, start+todo)` of the whole run. -/
lemma emitRun_slice :
    ∀ (masks : List (List (List Nat))) (start todo : Nat),
      (∀ mk ∈ masks, ∀ s ∈ mk, s ≠ []) →
      start + todo ≤ totalLen masks →
      emitRun masks start todo = ((allWords masks).drop start).take todo
  | [], start, todo, _, hbudget => by
    have h0 : totalLen [] = 0 := rfl
    have h2 : todo = 0 := by omega
    simp [emitRun, h2]
  | m :: ms, start, todo, hne, hbudget => by
    rw [emitRun]
    by_cases h0 : start = 0
    · rw [if_pos h0, h0]
      rw [emitCurrent_slice ms m 0 todo (hne m (by simp))
        (fun mk hmk => hne mk (by simp [hmk])) (Or.inr rfl)
        (by rw [totalLen_cons] at hbudget; omega)]
      rw [allWords_cons]
    rw [if_neg h0]
    by_cases hge : start ≥ maskLen m
    · rw [if_pos hge]
      rw [emitRun_slice ms (start - maskLen m) todo
        (fun mk hmk => hne mk (by simp [hmk]))
        (by rw [totalLen_cons] at hbudget; omega)]
      have hmlen : (maskWords m).length ≤ start := by rw [maskWords_length]; omega
      rw [allWords_cons, List.drop_append_eq_append_drop,
        List.drop_of_length_le hmlen, maskWords_length, List.nil_append]
    · rw [if_neg hge]
      rw [emitCurrent_slice ms m start todo (hne m (by simp))
        (fun mk hmk => hne mk (by simp [hmk])) (Or.inl (by omega))
        (by rw [totalLen_cons] at hbudget; omega)]
      rw [allWords_cons]

lemma allWords_length (masks : List (List (List Nat))) :
    (allWords masks).length = totalLen masks := by
  rw [allWords, List.length_flatMap, totalLen]
  congr 1
  apply List.map_congr_left
  intro mk _
  exact maskWords_length mk

/-! ### Job ranges (`work`, the `options.m_job_set` branch of main.cpp)

`q = ml_len / job_total; r = ml_len - q * job_total; todo = q;
start_idx = q * (job_number - 1);
if (r != 0) { start_idx += min(job_number - 1, r); todo += job_number <= r ? 1 : 0 }`.
-/

/-- Start index of job `J/N` over `L` words. -/
def jobStart (L N J : Nat) : Nat :=
  (L / N) * (J - 1) + (if L - (L / N) * N ≠ 0 then min (J - 1) (L - (L / N) * N) else 0)

/-- Number of words of job `J/N` over `L` words. -/
def jobTodo (L N J : Nat) : Nat :=
  (L / N) + (if L - (L / N) * N ≠ 0 ∧ J ≤ L - (L / N) * N then 1 else 0)

lemma job_r_eq_mod (L N : Nat) : L - (L / N) * N = L % N := by
  have h := Nat.div_add_mod L N
  have h2 : (L / N) * N = N * (L / N) := Nat.mul_comm _ _
  omega

lemma jobStart_eq (L N J : Nat) :
    jobStart L N J = (L / N) * (J - 1) + min (J - 1) (L % N) := by
  rw [jobStart, job_r_eq_mod]
  by_cases h : L % N ≠ 0
  · rw [if_pos h]
  · rw [if_neg h]
    have h0 : L % N = 0 := by omega
    rw [h0]
    omega

lemma jobTodo_eq (L N J : Nat) (hJ : 1 ≤ J) :
    jobTodo L N J = L / N + (if J ≤ L % N then 1 else 0) := by
  rw [jobTodo, job_r_eq_mod]
  by_cases h : J ≤ L % N
  · rw [if_pos h, if_pos ⟨by omega, h⟩]
  · rw [if_neg h, if_neg (by tauto)]

/-- Adjacent jobs tile the index space: job `J` ends where job `J+1` starts. -/
lemma jobStart_add_todo (L N J : Nat) (hJ : 1 ≤ J) :
    jobStart L N J + jobTodo L N J = jobStart L N (J + 1) := by
  rw [jobStart_eq, jobTodo_eq L N J hJ, jobStart_eq]
  have h1 : (L / N) * (J + 1 - 1) = (L / N) * (J - 1) + (L / N) := by
    have : J + 1 - 1 = (J - 1) + 1 := by omega
    rw [this, Nat.mul_add, Nat.mul_one]
  rw [h1]
  by_cases h : J ≤ L % N
  · rw [if_pos h]
    have ha : min (J - 1) (L % N) = J - 1 := by omega
    have hb : min (J + 1 - 1) (L % N) = J := by omega
    omega
  · rw [if_neg h]
    have ha : min (J - 1) (L % N) = L % N := by omega
    have hb : min (J + 1 - 1) (L % N) = L % N := by omega
    omega

/-- The first job starts at index 0 and the last ends at `L`. -/
lemma jobStart_one (L N : Nat) : jobStart L N 1 = 0 := by
  rw [jobStart_eq]
  simp

lemma jobStart_top (L N : Nat) (hN : 1 ≤ N) : jobStart L N (N + 1) = L := by
  rw [jobStart_eq]
  have hr : L % N < N := Nat.mod_lt _ (by omega)
  have hmin : min (N + 1 - 1) (L % N) = L % N := by omega
  rw [hmin]
  have h := Nat.div_add_mod L N
  have h2 : (L / N) * N = N * (L / N) := Nat.mul_comm _ _
  have h3 : N + 1 - 1 = N := by omega
  rw [h3]
  omega

lemma jobStart_mono_le (L N J : Nat) (hJ : 1 ≤ J) (hJN : J ≤ N) :
    jobStart L N J + jobTodo L N J ≤ L := by
  rw [jobStart_add_todo L N J hJ]
  have key : ∀ k, k ≤ N → jobStart L N (k + 1) ≤ jobStart L N (N + 1) := by
    intro k hk
    rw [jobStart_eq, jobStart_eq]
    have h1 : (L / N) * (k + 1 - 1) ≤ (L / N) * (N + 1 - 1) :=
      Nat.mul_le_mul_left _ (by omega)
    have h2 : min (k + 1 - 1) (L % N) ≤ min (N + 1 - 1) (L % N) := by omega
    omega
  have := key J hJN
  rw [jobStart_top L N (by omega)] at this
  exact this

/-- Claim C2: with `q = L / N` and `r = L mod N`, job `J/N` emits exactly the
contiguous range of enumeration indices starting at `q*(J-1) + min(J-1, r)`
of length `q + (1 if J ≤ r else 0)`, and the concatenation of the outputs of
jobs `1/N` … `N/N` equals the output of a single whole run. -/
theorem C2_job_partition (masks : List (List (List Nat)))
    (hne : ∀ mk ∈ masks, ∀ s ∈ mk, s ≠ []) (N : Nat) (hN : 1 ≤ N) :
    (∀ J, 1 ≤ J → J ≤ N →
      jobStart (totalLen masks) N J =
          (totalLen masks / N) * (J - 1) + min (J - 1) (totalLen masks % N) ∧
        jobTodo (totalLen masks) N J =
          totalLen masks / N + (if J ≤ totalLen masks % N then 1 else 0) ∧
        emitRun masks (jobStart (totalLen masks) N J) (jobTodo (totalLen masks) N J) =
          ((allWords masks).drop (jobStart (totalLen masks) N J)).take
            (jobTodo (totalLen masks) N J)) ∧
      (List.range N).flatMap
          (fun j => emitRun masks (jobStart (totalLen masks) N (j + 1))
            (jobTodo (totalLen masks) N (j + 1))) =
        emitRun masks 0 (totalLen masks) := by
  have hwhole : emitRun masks 0 (totalLen masks) = allWords masks := by
    rw [emitRun_slice masks 0 (totalLen masks) hne (by omega), List.drop_zero,
      List.take_of_length_le (le_of_eq (allWords_length masks))]
  have hjob : ∀ J, 1 ≤ J → J ≤ N →
      emitRun masks (jobStart (totalLen masks) N J) (jobTodo (totalLen masks) N J) =
        ((allWords masks).drop (jobStart (totalLen masks) N J)).take
          (jobTodo (totalLen masks) N J) := by
    intro J h1 h2
    exact emitRun_slice masks _ _ hne (jobStart_mono_le _ N J h1 h2)
  refine ⟨fun J h1 h2 => ⟨jobStart_eq _ N J, jobTodo_eq _ N J h1, hjob J h1 h2⟩, ?_⟩
  rw [hwhole]
  have key : ∀ n, n ≤ N →
      (List.range n).flatMap
          (fun j => emitRun masks (jobStart (totalLen masks) N (j + 1))
            (jobTodo (totalLen masks) N (j + 1))) =
        (allWords masks).take (jobStart (totalLen masks) N (n + 1)) := by
    intro n
    induction n with
    | zero =>
      intro _
      rw [show jobStart (totalLen masks) N (0 + 1) = 0 from jobStart_one _ N]
      simp
    | succ k ih =>
      intro hk
      rw [List.range_succ, List.flatMap_append, ih (by omega),
        List.flatMap_cons, List.flatMap_nil, List.append_nil,
        hjob (k + 1) (by omega) hk,
        ← jobStart_add_todo _ N (k + 1) (by omega), List.take_add]
  have := key N (by omega)
  rw [this, jobStart_top _ N hN,
    List.take_of_length_le (le_of_eq (allWords_length masks))]

/-- Witness for C2: the ten-word run `?d` split into 5 jobs of 2 words. -/
theorem C2_job_partition_witness :
    (∀ J, 1 ≤ J → J ≤ 5 →
      jobStart (totalLen [[[0, 1, 2, 3, 4, 5, 6, 7, 8, 9]]]) 5 J =
          (totalLen [[[0, 1, 2, 3, 4, 5, 6, 7, 8, 9]]] / 5) * (J - 1) +
            min (J - 1) (totalLen [[[0, 1, 2, 3, 4, 5, 6, 7, 8, 9]]] % 5) ∧
        jobTodo (totalLen [[[0, 1, 2, 3, 4, 5, 6, 7, 8, 9]]]) 5 J =
          totalLen [[[0, 1, 2, 3, 4, 5, 6, 7, 8, 9]]] / 5 +
            (if J ≤ totalLen [[[0, 1, 2, 3, 4, 5, 6, 7, 8, 9]]] % 5 then 1 else 0) ∧
        emitRun [[[0, 1, 2, 3, 4, 5, 6, 7, 8, 9]]]
            (jobStart (totalLen [[[0, 1, 2, 3, 4, 5, 6, 7, 8, 9]]]) 5 J)
            (jobTodo (totalLen [[[0, 1, 2, 3, 4, 5, 6, 7, 8, 9]]]) 5 J) =
          ((allWords [[[0, 1, 2, 3, 4, 5, 6, 7, 8, 9]]]).drop
              (jobStart (totalLen [[[0, 1, 2, 3, 4, 5, 6, 7, 8, 9]]]) 5 J)).take
            (jobTodo (totalLen [[[0, 1, 2, 3, 4, 5, 6, 7, 8, 9]]]) 5 J)) ∧
      (List.range 5).flatMap
          (fun j => emitRun [[[0, 1, 2, 3, 4, 5, 6, 7, 8, 9]]]
            (jobStart (totalLen [[[0, 1, 2, 3, 4, 5, 6, 7, 8, 9]]]) 5 (j + 1))
            (jobTodo (totalLen [[[0, 1, 2, 3, 4, 5, 6, 7, 8, 9]]]) 5 (j + 1))) =
        emitRun [[[0, 1, 2, 3, 4, 5, 6, 7, 8, 9]]] 0
          (totalLen [[[0, 1, 2, 3, 4, 5, 6, 7, 8, 9]]]) :=
  C2_job_partition [[[0, 1, 2, 3, 4, 5, 6, 7, 8, 9]]] (by decide) 5 (by decide)

/-! ## Overflow-checked arithmetic (Mask.h, work counting pass)

`push_charset_right` multiplies `m_len` with `umul64_overflow` and aborts on
overflow; the counting pass adds with `uadd64_overflow` and aborts on
overflow.  `none` models the abort. -/

/-- The modulus of `uint64_t`. -/
def U64 : Nat := 2 ^ 64

/-- Folding `push_charset_right` after the first push: multiply the running
`m_len` by each further charset length, aborting on 64-bit overflow. -/
def maskLenPush (acc : Nat) : List (List Nat) → Option Nat
  | [] => some acc
  | c :: cs => if acc * c.length < U64 then maskLenPush (acc * c.length) cs else none

/-- `Mask::m_len` as maintained by the sequence of `push_charset_right`
calls: the first push stores the charset length unchecked (it is a
`uint64_t`), each further push multiplies with the overflow check. -/
def maskLenChecked : List (List Nat) → Option Nat
  | [] => some 0
  | c :: cs => maskLenPush c.length cs

/-- The counting pass of `work`: sum the mask lengths with
`uadd64_overflow`, aborting on 64-bit overflow. -/
def uaddChecked (acc : Nat) : List Nat → Option Nat
  | [] => some acc
  | x :: xs => if acc + x < U64 then uaddChecked (acc + x) xs else none

def countChecked (sizes : List Nat) : Option Nat :=
  uaddChecked 0 sizes

lemma maskLenPush_spec (cs : List (List Nat)) (hpos : ∀ c ∈ cs, c ≠ []) :
    ∀ acc : Nat, 0 < acc → acc < U64 →
      maskLenPush acc cs =
        if acc * (cs.map List.length).prod < U64 then
          some (acc * (cs.map List.length).prod)
        else none := by
  induction cs with
  | nil =>
    intro acc hpos hlt
    simp [maskLenPush, hlt]
  | cons c cs ih =>
    intro acc haccpos hacclt
    have hc : 0 < c.length := List.length_pos.mpr (hpos c (by simp))
    have hrest : 0 < (cs.map List.length).prod :=
      lenRev_pos (fun t ht => hpos t (by simp [ht]))
    rw [maskLenPush]
    by_cases hstep : acc * c.length < U64
    · rw [if_pos hstep, ih (fun t ht => hpos t (by simp [ht])) _
        (Nat.mul_pos haccpos hc) hstep]
      rw [List.map_cons, List.prod_cons, ← Nat.mul_assoc]
    · rw [if_neg hstep]
      have : U64 ≤ acc * ((c :: cs).map List.length).prod := by
        rw [List.map_cons, List.prod_cons, ← Nat.mul_assoc]
        calc U64 ≤ acc * c.length := by omega
          _ ≤ acc * c.length * (cs.map List.length).prod :=
            Nat.le_mul_of_pos_right _ hrest
      rw [if_neg (by omega)]

lemma uaddChecked_spec (xs : List Nat) :
    ∀ acc : Nat, acc < U64 →
      uaddChecked acc xs =
        if acc + xs.sum < U64 then some (acc + xs.sum) else none := by
  induction xs with
  | nil =>
    intro acc hlt
    simp [uaddChecked, hlt]
  | cons x xs ih =>
    intro acc hlt
    rw [uaddChecked]
    by_cases hstep : acc + x < U64
    · rw [if_pos hstep, ih _ hstep, List.sum_cons, ← Nat.add_assoc]
    · rw [if_neg hstep, List.sum_cons, if_neg (by omega)]

/-! ## The `work` driver (main.cpp)

`work` counts, resolves the range, optionally prints the size, checks that
the widest mask fits the 8192-element output buffer, opens the output file,
and only then emits.  The stages that can stop the run are encoded in order
as `WorkResult` constructors: a result other than `output` means the process
exits before the output file is opened and before any word is emitted. -/

structure WorkOptions where
  jobSet : Bool
  jobNumber : Nat
  jobTotal : Nat
  startSet : Bool
  startWord : Nat
  endSet : Bool
  endWord : Nat
  printSize : Bool

inductive WorkResult where
  | countOverflow : WorkResult
  | rangeError : WorkResult
  | printedSize : Nat → WorkResult
  | widthError : WorkResult
  | output : List (List Nat) → WorkResult
deriving DecidableEq

/-- `ml_max_width`: running maximum of the masks' widths, starting at 0. -/
def maxWidth (masks : List (List (List Nat))) : Nat :=
  (masks.map List.length).foldl max 0

/-- `uint64_t` subtraction (used for the `end_idx - 1` underflow in the
range validation). -/
def usub64 (a b : Nat) : Nat :=
  (a + U64 - b) % U64

/-- Tail of `work` after range resolution: `--size` printing, the
`word.size() > buffer.size()` width check (8192-element buffer), then the
emission loop. -/
def workRange (opts : WorkOptions) (masks : List (List (List Nat)))
    (start endIdx : Nat) : WorkResult :=
  if opts.printSize then .printedSize (endIdx - start)
  else if 8192 < maxWidth masks + 1 then .widthError
  else .output (emitRun masks start (endIdx - start))

/-- The `work` driver: counting pass with overflow check, then range
resolution (job split or begin/end with its validity check), then
`workRange`. -/
def work (opts : WorkOptions) (masks : List (List (List Nat))) : WorkResult :=
  match countChecked (masks.map maskLen) with
  | none => .countOverflow
  | some L =>
    if opts.jobSet then
      workRange opts masks (jobStart L opts.jobTotal opts.jobNumber)
        (jobStart L opts.jobTotal opts.jobNumber + jobTodo L opts.jobTotal opts.jobNumber)
    else
      if usub64 (if opts.endSet then opts.endWord + 1 else L) 1 <
            (if opts.startSet then opts.startWord else 0) ∨
          L < (if opts.endSet then opts.endWord + 1 else L) then
        .rangeError
      else
        workRange opts masks (if opts.startSet then opts.startWord else 0)
          (if opts.endSet then opts.endWord + 1 else L)

/-- Claim C9: a 64-bit overflow of the product of charset lengths during
mask construction, or of the running sum of mask lengths during the
counting pass, is a hard error (modelled `none` / `countOverflow`) rather
than a wrap modulo 2^64: the checked length is `none` exactly when the true
product reaches 2^64 and otherwise equals the exact product; the checked
count is `none` exactly when the true sum reaches 2^64 and otherwise equals
the exact sum; and a counting overflow stops `work` before any word is
emitted. -/
theorem C9_overflow_fatal :
    (∀ cs : List (List Nat), cs ≠ [] → (∀ c ∈ cs, c ≠ []) →
      (∀ c ∈ cs, c.length < U64) →
      ((maskLenChecked cs = none ↔ U64 ≤ maskLen cs) ∧
        ∀ l, maskLenChecked cs = some l → l = maskLen cs)) ∧
      (∀ sizes : List Nat,
        (countChecked sizes = none ↔ U64 ≤ sizes.sum) ∧
          ∀ t, countChecked sizes = some t → t = sizes.sum) ∧
      (∀ (opts : WorkOptions) (masks : List (List (List Nat))),
        countChecked (masks.map maskLen) = none →
          work opts masks = WorkResult.countOverflow) := by
  refine ⟨?_, ?_, ?_⟩
  · intro cs hne hpos hbound
    match cs, hne with
    | c :: cs, _ =>
      have hc : 0 < c.length := List.length_pos.mpr (hpos c (by simp))
      have hcU : c.length < U64 := hbound c (by simp)
      have hml : maskLen (c :: cs) = c.length * (cs.map List.length).prod := by
        rw [maskLen, List.map_cons, List.prod_cons]
      have hspec := maskLenPush_spec cs (fun t ht => hpos t (by simp [ht]))
        c.length hc hcU
      rw [show maskLenChecked (c :: cs) = maskLenPush c.length cs from rfl, hspec, hml]
      constructor
      · by_cases h : c.length * (cs.map List.length).prod < U64
        · rw [if_pos h]
          simp
          omega
        · rw [if_neg h]
          simp
          omega
      · intro l hl
        by_cases h : c.length * (cs.map List.length).prod < U64
        · rw [if_pos h] at hl
          exact (Option.some_inj.mp hl).symm
        · rw [if_neg h] at hl
          exact absurd hl (by simp)
  · intro sizes
    have hspec := uaddChecked_spec sizes 0 (by decide)
    rw [countChecked, hspec, Nat.zero_add]
    constructor
    · by_cases h : sizes.sum < U64
      · rw [if_pos h]
        simp
        omega
      · rw [if_neg h]
        simp
        omega
    · intro t ht
      by_cases h : sizes.sum < U64
      · rw [if_pos h] at ht
        exact (Option.some_inj.mp ht).symm
      · rw [if_neg h] at ht
        exact absurd ht (by simp)
  · intro opts masks hover
    rw [work, hover]

/-- Witness for C9: 33 charsets of 4 codepoints overflow the 64-bit product;
two masks of 2^63 words overflow the 64-bit sum, stopping `work`. -/
theorem C9_overflow_fatal_witness :
    ((maskLenChecked (List.replicate 33 (List.replicate 4 0)) = none ↔
        U64 ≤ maskLen (List.replicate 33 (List.replicate 4 0))) ∧
      (∀ l, maskLenChecked (List.replicate 33 (List.replicate 4 0)) = some l →
        l = maskLen (List.replicate 33 (List.replicate 4 0)))) ∧
    ((countChecked [2 ^ 63, 2 ^ 63] = none ↔ U64 ≤ ([2 ^ 63, 2 ^ 63] : List Nat).sum) ∧
      (∀ t, countChecked [2 ^ 63, 2 ^ 63] = some t →
        t = ([2 ^ 63, 2 ^ 63] : List Nat).sum)) ∧
    work ⟨false, 0, 0, false, 0, false, 0, false⟩
        (List.replicate 2 (List.replicate 63 [0, 1])) =
      WorkResult.countOverflow :=
  ⟨C9_overflow_fatal.1 (List.replicate 33 (List.replicate 4 0))
      (by decide) (by decide) (by decide),
    C9_overflow_fatal.2.1 [2 ^ 63, 2 ^ 63],
    C9_overflow_fatal.2.2 ⟨false, 0, 0, false, 0, false, 0, false⟩
      (List.replicate 2 (List.replicate 63 [0, 1])) (by decide)⟩

lemma work_eq_some {opts : WorkOptions} {masks : List (List (List Nat))} {L : Nat}
    (h : countChecked (masks.map maskLen) = some L) :
    work opts masks =
      if opts.jobSet then
        workRange opts masks (jobStart L opts.jobTotal opts.jobNumber)
          (jobStart L opts.jobTotal opts.jobNumber + jobTodo L opts.jobTotal opts.jobNumber)
      else
        if usub64 (if opts.endSet then opts.endWord + 1 else L) 1 <
              (if opts.startSet then opts.startWord else 0) ∨
            L < (if opts.endSet then opts.endWord + 1 else L) then
          .rangeError
        else
          workRange opts masks (if opts.startSet then opts.startWord else 0)
            (if opts.endSet then opts.endWord + 1 else L) := by
  rw [work, h]

/-- Claim C10: when the masks' maximum width plus one exceeds the
8192-element output buffer (any mask wider than 8191 positions) and `--size`
is not requested, `work` stops with a diagnostic and exit status 1
(`widthError`) — a stage that, in the source, precedes opening the output
file and emitting any word — even though parsing, counting and range
resolution succeeded. -/
theorem C10_width_error (opts : WorkOptions) (masks : List (List (List Nat)))
    (L : Nat) (hcount : countChecked (masks.map maskLen) = some L)
    (hsize : opts.printSize = false)
    (hwidth : 8192 < maxWidth masks + 1)
    (hrange : opts.jobSet = true ∨
      ¬ (usub64 (if opts.endSet then opts.endWord + 1 else L) 1 <
            (if opts.startSet then opts.startWord else 0) ∨
          L < (if opts.endSet then opts.endWord + 1 else L))) :
    work opts masks = WorkResult.widthError := by
  rw [work_eq_some hcount]
  by_cases hj : opts.jobSet = true
  · rw [hj]
    simp [workRange, hsize, hwidth]
  · have hj' : opts.jobSet = false := by
      revert hj
      cases opts.jobSet <;> simp
    rcases hrange with hjob | hok
    · exact absurd hjob hj
    · rw [hj']
      simp [workRange, hsize, hwidth, hok]

/-- Witness for C10: a single mask of width 8192 (one-codepoint charsets),
no options set. -/
theorem C10_width_error_witness :
    work ⟨false, 0, 0, false, 0, false, 0, false⟩ [List.replicate 8192 [0]] =
      WorkResult.widthError := by
  have h8 : (8192 : Nat) = 8191 + 1 := by norm_num
  have h1 : maskLen (List.replicate 8192 [0]) = 1 := by
    rw [h8, List.replicate_succ]
    show (([0] :: List.replicate 8191 [0]).map List.length).prod = 1
    rw [← List.replicate_succ, ← h8, List.map_replicate, List.prod_replicate]
    simp
  have hcount : countChecked ([List.replicate 8192 [0]].map maskLen) = some 1 := by
    simp only [List.map_cons, List.map_nil, h1]
    decide
  have hwidth : 8192 < maxWidth [List.replicate 8192 [0]] + 1 := by
    have hmw : maxWidth [List.replicate 8192 [0]] = 8192 := by
      rw [maxWidth, List.map_cons, List.map_nil, List.length_replicate]
      decide
    omega
  exact C10_width_error ⟨false, 0, 0, false, 0, false, 0, false⟩
    [List.replicate 8192 [0]] 1 hcount rfl hwidth (Or.inr (by decide))

/-! ## Built-in charset registries (ReadCharsets.cpp)

`initDefaultCharsetsAscii` assigns the byte-mode built-ins into a
`std::map<char, DefaultCharset>`; `initDefaultCharsetsUnicode` decodes the
same ASCII string literals (UTF-8 decoding of pure-ASCII bytes is the
identity on the byte values) and appends them into map entries created on
demand by `operator[]`.  Both are modelled operation by operation; names are
the ASCII codes of the charset letters. -/

/-- `DefaultCharset`: charset body plus the `final` flag.  The default
constructor (used by `std::map::operator[]` for absent keys) gives an empty
body with `final = true`. -/
structure DefaultCharset where
  cset : List Nat
  final : Bool
deriving DecidableEq

/-- A charset registry keyed by codepoint, with `operator[]` semantics:
absent entries read as default-constructed. -/
def emptyRegistry : Nat → DefaultCharset := fun _ => ⟨[], true⟩

/-- `charsets[k] = v`. -/
def mapSet (m : Nat → DefaultCharset) (k : Nat) (v : DefaultCharset) :
    Nat → DefaultCharset :=
  fun q => if q = k then v else m q

/-- `decode_utf8(..., back_inserter(charsets[k].cset), ...)`: append decoded
codepoints to the entry's body (creating the entry if absent). -/
def mapAppend (m : Nat → DefaultCharset) (k : Nat) (cs : List Nat) :
    Nat → DefaultCharset :=
  fun q => if q = k then ⟨(m k).cset ++ cs, (m k).final⟩ else m q

/-- `charsets[k].final = b`. -/
def mapSetFinal (m : Nat → DefaultCharset) (k : Nat) (b : Bool) :
    Nat → DefaultCharset :=
  fun q => if q = k then ⟨(m k).cset, b⟩ else m q

/-- "abcdefghijklmnopqrstuvwxyz" -/
def csetLower : List Nat :=
  [97, 98, 99, 100, 101, 102, 103, 104, 105, 106, 107, 108, 109, 110, 111,
    112, 113, 114, 115, 116, 117, 118, 119, 120, 121, 122]

/-- "ABCDEFGHIJKLMNOPQRSTUVWXYZ" -/
def csetUpper : List Nat :=
  [65, 66, 67, 68, 69, 70, 71, 72, 73, 74, 75, 76, 77, 78, 79, 80, 81, 82,
    83, 84, 85, 86, 87, 88, 89, 90]

/-- "0123456789" -/
def csetDigits : List Nat :=
  [48, 49, 50, 51, 52, 53, 54, 55, 56, 57]

/-- The 33 symbol characters of `default_charset_s` (space through tilde). -/
def csetSymbols : List Nat :=
  [32, 33, 34, 35, 36, 37, 38, 39, 40, 41, 42, 43, 44, 45, 46, 47, 58, 59,
    60, 61, 62, 63, 64, 91, 92, 93, 94, 95, 96, 123, 124, 125, 126]

/-- "0123456789abcdef" -/
def csetHexLower : List Nat :=
  [48, 49, 50, 51, 52, 53, 54, 55, 56, 57, 97, 98, 99, 100, 101, 102]

/-- "0123456789ABCDEF" -/
def csetHexUpper : List Nat :=
  [48, 49, 50, 51, 52, 53, 54, 55, 56, 57, 65, 66, 67, 68, 69, 70]

/-- "?l?u?d?s" (the unexpanded body of the built-in `a`). -/
def csetARef : List Nat :=
  [63, 108, 63, 117, 63, 100, 63, 115]

/-- `initDefaultCharsetsAscii` (ReadCharsets.cpp lines 72-81): assign the
byte-mode built-ins `l u d s h H b n r` as final and `a = "?l?u?d?s"` as
non-final. -/
def initDefaultCharsetsAscii : Nat → DefaultCharset :=
  mapSet (mapSet (mapSet (mapSet (mapSet (mapSet (mapSet (mapSet (mapSet
    (mapSet emptyRegistry
      108 ⟨csetLower, true⟩)
      117 ⟨csetUpper, true⟩)
      100 ⟨csetDigits, true⟩)
      115 ⟨csetSymbols, true⟩)
      104 ⟨csetHexLower, true⟩)
      72 ⟨csetHexUpper, true⟩)
      98 ⟨List.range 256, true⟩)
      110 ⟨[10], true⟩)
      114 ⟨[13], true⟩)
      97 ⟨csetARef, false⟩

/-- `initDefaultCharsetsUnicode` (ReadCharsets.cpp lines 87-115), modelled
statement by statement.  Note the source's line 100: the decoded
`default_charset_h` is appended to `charsets['H'].cset` (not `'h'`), after
which line 101 sets `charsets['h'].final` — creating `'h'` as an empty
entry — and line 103 appends `default_charset_H` to `'H'` as well. -/
def initDefaultCharsetsUnicode : Nat → DefaultCharset :=
  let m1 := mapAppend emptyRegistry 108 csetLower
  let m2 := mapSetFinal m1 108 true
  let m3 := mapAppend m2 117 csetUpper
  let m4 := mapSetFinal m3 117 true
  let m5 := mapAppend m4 100 csetDigits
  let m6 := mapSetFinal m5 100 true
  let m7 := mapAppend m6 115 csetSymbols
  let m8 := mapSetFinal m7 115 true
  let m9 := mapAppend m8 72 csetHexLower
  let m10 := mapSetFinal m9 104 true
  let m11 := mapAppend m10 72 csetHexUpper
  let m12 := mapSetFinal m11 72 true
  let m13 := mapAppend m12 110 [10]
  let m14 := mapSetFinal m13 110 true
  let m15 := mapAppend m14 114 [13]
  let m16 := mapSetFinal m15 114 true
  let m17 := mapAppend m16 97 csetARef
  mapSetFinal m17 97 false

/-- Claim C5 (code bug): in byte mode the built-ins `h` and `H` hold the 16
lowercase/uppercase hex codepoints as documented, but in unicode mode the
typo at ReadCharsets.cpp line 100 appends the lowercase hex string to
`charsets['H']`, so after initialization `h` (codepoint 104) is empty and
`H` (codepoint 72) holds all 32 codepoints — contradicting the help text
(`?h = 0123456789abcdef`, `?H = 0123456789ABCDEF`). -/
theorem C5_unicode_hex_registry_bug :
    (initDefaultCharsetsAscii 104).cset = csetHexLower ∧
      (initDefaultCharsetsAscii 72).cset = csetHexUpper ∧
      (initDefaultCharsetsUnicode 104).cset = [] ∧
      (initDefaultCharsetsUnicode 72).cset = csetHexLower ++ csetHexUpper ∧
      ¬ (initDefaultCharsetsUnicode 104).cset = csetHexLower ∧
      ¬ (initDefaultCharsetsUnicode 72).cset = csetHexUpper := by
  refine ⟨?_, ?_, ?_, ?_, ?_, ?_⟩ <;> decide

/-! ## Charset expansion (ExpandCharset.h)

The Maskuni registry is a `std::multimap`: several definitions per name in
insertion order; modelled as a function from names to the ordered list of
definitions (last = most recent).  `expandCharset` rewrites the most recent
definition of a name by replacing every reference `?K` with the
`c`-th-from-last definition of `K`, where `c` counts how often `K` was
already substituted on the path to the sub-range being scanned (the path's
history starts with the name being expanded).  A non-final substitution is
scanned in turn with the history extended by `K`.  The queue-of-sub-ranges
loop of the source is modelled by structural recursion (sub-ranges are
disjoint and the registry is not modified during the walk, so the
processing order does not affect the resulting list); `fuel` bounds the
nesting depth. -/

/-- The body walk of `expandCharset` (escape character `?` = 63). -/
def expandTokens (reg : Nat → List DefaultCharset) :
    Nat → List Nat → List Nat → Option (List Nat)
  | 0, _, _ => none
  | _ + 1, [], _ => some []
  | fuel + 1, c :: rest, history =>
    if c = 63 then
      match rest with
      | [] => some [c]
      | k :: rest' =>
        if k = 63 then
          (expandTokens reg fuel rest' history).map (fun t => 63 :: t)
        else
          if (reg k).length = 0 then none
          else
            if history.count k < (reg k).length then
              let d := (reg k).getD ((reg k).length - 1 - history.count k) ⟨[], true⟩
              match (if d.final then some d.cset
                     else expandTokens reg fuel d.cset (history ++ [k])) with
              | none => none
              | some t1 => (expandTokens reg fuel rest' history).map (fun t2 => t1 ++ t2)
            else none
    else
      (expandTokens reg fuel rest history).map (fun t => c :: t)

/-- The final deduplication: keep the first occurrence of each codepoint,
erase the later ones. -/
def dedupFirst (l : List Nat) : List Nat :=
  match l with
  | [] => []
  | c :: rest => c :: dedupFirst (rest.filter (fun x => !(x = c)))
termination_by l.length
decreasing_by
  simp_wf
  apply Nat.lt_succ_of_le
  apply List.length_filter_le

/-- `expandCharset`: take the most recent definition of `name`; if already
final, succeed without change; otherwise walk the body with the history
initialised to `[name]`, deduplicate, mark final and store it back as the
most recent definition. -/
def expandCharset (reg : Nat → List DefaultCharset) (name fuel : Nat) :
    Option (Nat → List DefaultCharset) :=
  match (reg name).getLast? with
  | none => none
  | some d =>
    if d.final then some reg
    else
      match expandTokens reg fuel d.cset [name] with
      | none => none
      | some t =>
        some (fun q => if q = name then (reg name).dropLast ++ [⟨dedupFirst t, true⟩]
              else reg q)

/-- Registry with `?1 = "123"` (expanded, final) redefined as
`?1 = "?1456"` (not yet final): the worked example of the claim
(name `'1'` = 49). -/
def exampleRegistry : Nat → List DefaultCharset := fun k =>
  if k = 49 then [⟨[49, 50, 51], true⟩, ⟨[63, 49, 52, 53, 54], false⟩] else []

/-- Claim C4: a reference `?K` is replaced by the `c`-th-from-last
definition of `K` where `c` counts the substitutions of `K` on the path, so
that `?1='123'` followed by `?1='?1456'` expands `?1` to `'123456'`; and
expansion fails when a referenced name has no definitions, or when the
substitutions of a name on one path reach its number of definitions. -/
theorem C4_expansion :
    ((expandCharset exampleRegistry 49 10).map (fun r => r 49) =
      some [⟨[49, 50, 51], true⟩, ⟨[49, 50, 51, 52, 53, 54], true⟩]) ∧
    (∀ (reg : Nat → List DefaultCharset) (k : Nat) (rest history : List Nat)
      (fuel : Nat), reg k = [] → k ≠ 63 →
        expandTokens reg fuel (63 :: k :: rest) history = none) ∧
    (∀ (reg : Nat → List DefaultCharset) (k : Nat) (rest history : List Nat)
      (fuel : Nat), k ≠ 63 → (reg k).length ≤ history.count k →
        expandTokens reg fuel (63 :: k :: rest) history = none) := by
  refine ⟨?_, ?_, ?_⟩
  · have htok : expandTokens exampleRegistry 10 [63, 49, 52, 53, 54] [49] =
        some [49, 50, 51, 52, 53, 54] := by decide
    have hstep : expandCharset exampleRegistry 49 10 =
        match expandTokens exampleRegistry 10 [63, 49, 52, 53, 54] [49] with
        | none => none
        | some t =>
          some (fun q => if q = 49 then (exampleRegistry 49).dropLast ++
                [⟨dedupFirst t, true⟩]
              else exampleRegistry q) := rfl
    rw [hstep, htok]
    have hd : dedupFirst [49, 50, 51, 52, 53, 54] = [49, 50, 51, 52, 53, 54] := by
      simp [dedupFirst]
    show some (if 49 = 49 then (exampleRegistry 49).dropLast ++
        [⟨dedupFirst [49, 50, 51, 52, 53, 54], true⟩] else exampleRegistry 49) = _
    rw [hd]
    decide
  · intro reg k rest history fuel hempty hk
    match fuel with
    | 0 => rfl
    | fuel + 1 =>
      rw [expandTokens, if_pos rfl]
      rw [if_neg hk, if_pos (by rw [hempty]; rfl)]
  · intro reg k rest history fuel hk hcount
    match fuel with
    | 0 => rfl
    | fuel + 1 =>
      rw [expandTokens, if_pos rfl, if_neg hk]
      by_cases hempty : (reg k).length = 0
      · rw [if_pos hempty]
      · rw [if_neg hempty, if_neg (by omega)]

/-- Witness for C4: the failure branches at concrete inputs (no definition
of `'2'` = 50; two exhausted definitions of `'1'` = 49). -/
theorem C4_expansion_witness :
    ((expandCharset exampleRegistry 49 10).map (fun r => r 49) =
      some [⟨[49, 50, 51], true⟩, ⟨[49, 50, 51, 52, 53, 54], true⟩]) ∧
      expandTokens exampleRegistry 5 [63, 50] [] = none ∧
      expandTokens exampleRegistry 5 [63, 49] [49, 49] = none :=
  ⟨C4_expansion.1,
    C4_expansion.2.1 exampleRegistry 50 [] [] 5 (by decide) (by decide),
    C4_expansion.2.2 exampleRegistry 49 [] [49, 49] 5 (by decide) (by decide)⟩

/-! ## Mask-line parser and mask-file generator (ReadMasks.cpp)

`readMask` builds a mask from a body string: each plain codepoint becomes a
one-element charset, `?K` pushes the most recent definition of `K`, `??` a
literal `?`.  The source discards `readMask`'s return value in
`readMaskLine_` (line 146), keeping whatever charsets were pushed before an
undefined reference, so the model returns the partial mask together with
the success flag.  `readMaskLine_` returns *true without touching the
(pre-cleared) mask* for an empty line or a line starting with `#`
(lines 92-95). -/

/-- `readMask` (lines 44-79): walk the body, returning (ok, pushed
charsets).  On an undefined `?K` the walk stops with `ok = false`,
keeping the charsets pushed so far. -/
def readMaskPartial (reg : Nat → List DefaultCharset) :
    List Nat → Bool × List (List Nat)
  | [] => (true, [])
  | c :: rest =>
    if c = 63 then
      match rest with
      | [] =>
        -- i + 1 == str.size(): the trailing escape is pushed as a literal
        (true, [[c]])
      | k :: rest' =>
        if k = 63 then
          let r := readMaskPartial reg rest'
          (r.1, [(63 : Nat)] :: r.2)
        else
          match (reg k).getLast? with
          | some d =>
            let r := readMaskPartial reg rest'
            (r.1, d.cset :: r.2)
          | none => (false, [])
    else
      let r := readMaskPartial reg rest
      (r.1, [c] :: r.2)

/-- Prepend a codepoint to the token currently being built (the head). -/
def consHead (c : Nat) : List (List Nat) → List (List Nat)
  | [] => [[c]]
  | t :: ts => (c :: t) :: ts

/-- The tokenizer of `readMaskLine_` (lines 98-114): split on unescaped `,`
(44); the line escape `\` (92) makes the next character literal; a trailing
lone `\` is kept. -/
def splitTokens : List Nat → List (List Nat)
  | [] => [[]]
  | c :: rest =>
    if c = 92 then
      match rest with
      | [] => consHead c (splitTokens [])
      | x :: rest' => consHead x (splitTokens rest')
    else if c = 44 then [] :: splitTokens rest
    else consHead c (splitTokens rest)

/-- Lines 123-133: insert every token but the last as an ephemeral charset
named `'1'`, `'2'`, … (non-final); an empty non-final token is fatal. -/
def registerTokens : (Nat → List DefaultCharset) → Nat → List (List Nat) →
    Option (Nat → List DefaultCharset)
  | reg, _, [] => some reg
  | reg, _, [_] => some reg
  | reg, key, t :: rest =>
    if t = [] then none
    else registerTokens
      (fun q => if q = key then reg key ++ [⟨t, false⟩] else reg q) (key + 1) rest

/-- Lines 137-143: expand the ephemeral charsets `'1'..` in order. -/
def expandKeys : (Nat → List DefaultCharset) → Nat → Nat → Nat →
    Option (Nat → List DefaultCharset)
  | reg, _, _, 0 => some reg
  | reg, fuel, key, n + 1 =>
    match expandCharset reg key fuel with
    | none => none
    | some reg' => expandKeys reg' fuel (key + 1) n

/-- `readMaskLine_` (lines 86-151) on a pre-cleared mask: an empty or
`#`-comment line returns success leaving the mask empty; otherwise
tokenize, register and expand the ephemeral charsets, parse the mask body
(the last token), and fail if the resulting mask has width 0. -/
def readMaskLine (reg : Nat → List DefaultCharset) (fuel : Nat)
    (line : List Nat) : Option (List (List Nat)) :=
  if line = [] ∨ line.head? = some 35 then some []
  else
    if 10 < (splitTokens line).length then none
    else
      match registerTokens reg 49 (splitTokens line) with
      | none => none
      | some reg1 =>
        match expandKeys reg1 fuel 49 ((splitTokens line).length - 1) with
        | none => none
        | some reg2 =>
          let mask := (readMaskPartial reg2 ((splitTokens line).getLastD [])).2
          if mask.length = 0 then none else some mask

/-- `MaskFileGenerator::readline`: hand out the next line (including its
`\n` when present) and the remaining content. -/
def readline (content : List Nat) : Option (List Nat × List Nat) :=
  if content = [] then none
  else
    match content.drop (content.takeWhile (fun c => !(c = 10))).length with
    | [] => some (content.takeWhile (fun c => !(c = 10)), [])
    | _ :: rest' => some (content.takeWhile (fun c => !(c = 10)) ++ [10], rest')

/-- The CRLF/LF stripping of `MaskFileGenerator::operator()`. -/
def stripEol (l : List Nat) : List Nat :=
  if 2 ≤ l.length ∧ l.getD (l.length - 1) 0 = 10 ∧ l.getD (l.length - 2) 0 = 13 then
    l.take (l.length - 2)
  else if 1 ≤ l.length ∧ l.getD (l.length - 1) 0 = 10 then
    l.take (l.length - 1)
  else l

/-- Result of one `MaskFileGenerator<T>::operator()(Mask&)` call in file
mode: end of input, a parse error (sticky `m_error`), or a produced mask
with the remaining content. -/
inductive GenResult where
  | exhausted : GenResult
  | errorOut : GenResult
  | produced : List (List Nat) → List Nat → GenResult
deriving DecidableEq

lemma readline_shrinks {content line rest : List Nat}
    (h : readline content = some (line, rest)) : rest.length < content.length := by
  rw [readline] at h
  by_cases hc : content = []
  · rw [if_pos hc] at h
    exact absurd h (by simp)
  · rw [if_neg hc] at h
    match hdrop : content.drop (content.takeWhile (fun c => !(c = 10))).length with
    | [] =>
      rw [hdrop] at h
      have hr : rest = [] := by
        have := (Prod.mk.injEq _ _ _ _).mp (Option.some_inj.mp h)
        exact this.2.symm
      rw [hr]
      have : 0 < content.length := List.length_pos.mpr hc
      simpa using this
    | d :: rest' =>
      rw [hdrop] at h
      have hr : rest = rest' := by
        have := (Prod.mk.injEq _ _ _ _).mp (Option.some_inj.mp h)
        exact this.2.symm
      have hlen := congrArg List.length hdrop
      rw [List.length_drop, List.length_cons] at hlen
      rw [hr]
      omega

/-- `MaskFileGenerator<char>::operator()` in file mode (lines 387-429):
read lines, strip the end-of-line, skip empty lines, and hand the line to
`readMaskLine_` after clearing the mask. -/
def mfgNext (reg : Nat → List DefaultCharset) (fuel : Nat)
    (content : List Nat) : GenResult :=
  match h : readline content with
  | none => .exhausted
  | some (line, rest) =>
    if stripEol line = [] then mfgNext reg fuel rest
    else
      match readMaskLine reg fuel (stripEol line) with
      | some mask => .produced mask rest
      | none => .errorOut
termination_by content.length
decreasing_by
  exact readline_shrinks h

lemma mfgNext_eq (reg : Nat → List DefaultCharset) (fuel : Nat)
    (content : List Nat) :
    mfgNext reg fuel content =
      match readline content with
      | none => .exhausted
      | some (line, rest) =>
        if stripEol line = [] then mfgNext reg fuel rest
        else
          match readMaskLine reg fuel (stripEol line) with
          | some mask => .produced mask rest
          | none => .errorOut := by
  rw [mfgNext]
  split
  · next heq => rw [heq]
  · next line rest heq => rw [heq]

lemma takeWhile_no_lf {t : List Nat} (h : 10 ∉ t) (rest : List Nat) :
    (t ++ 10 :: rest).takeWhile (fun c => !(c = 10)) = t := by
  induction t with
  | nil => simp
  | cons c t ih =>
    have hc : c ≠ 10 := by
      intro hc
      exact h (by simp [hc])
    rw [List.cons_append, List.takeWhile_cons_of_pos (by simp [hc]),
      ih (fun hm => h (by simp [hm]))]

lemma readline_line {t : List Nat} (h10 : 10 ∉ t) (rest : List Nat) :
    readline (t ++ 10 :: rest) = some (t ++ [10], rest) := by
  rw [readline, if_neg (by simp), takeWhile_no_lf h10 rest, List.drop_left]

lemma getD_append_last (u : List Nat) (c : Nat) :
    (u ++ [c]).getD u.length 0 = c := by
  rw [List.getD_eq_getElem?_getD, List.getElem?_append_right (le_refl _),
    Nat.sub_self]
  rfl

lemma getD_append_lt (u v : List Nat) {i : Nat} (h : i < u.length) :
    (u ++ v).getD i 0 = u.getD i 0 := by
  rw [List.getD_eq_getElem?_getD, List.getD_eq_getElem?_getD, List.getElem?_append,
    if_pos h]

/-- `stripEol` on a `#`-comment line (the `\n` and a possible preceding
`\r` go, so the stripped line still starts with `#`). -/
lemma stripEol_comment (t : List Nat) :
    ∃ u : List Nat, stripEol (35 :: t ++ [10]) = 35 :: u := by
  have hlen : (35 :: t ++ [10]).length = t.length + 2 := by simp
  have hlast : (35 :: t ++ [10]).getD (t.length + 1) 0 = 10 := by
    have := getD_append_last (35 :: t) 10
    simpa using this
  rw [stripEol, hlen]
  by_cases hcr : (35 :: t ++ [10]).getD (t.length + 2 - 2) 0 = 13
  · rw [if_pos ⟨by omega, by simpa using hlast, hcr⟩]
    -- CRLF case: `t` must end in 13, hence is nonempty
    have ht : t ≠ [] := by
      intro h0
      rw [h0] at hcr
      simp [List.getD] at hcr
    match t, ht with
    | c :: t', _ =>
      refine ⟨((c :: t') ++ [10]).take t'.length, ?_⟩
      simp [List.take_succ_cons]
  · rw [if_neg (by
      intro hh
      exact hcr (by simpa using hh.2.2))]
    rw [if_pos ⟨by omega, by simpa using hlast⟩]
    refine ⟨(t ++ [10]).take t.length, ?_⟩
    simp [List.take_succ_cons]

/-- Claim C6 counterexample: on the file content `"#x\na\n"` the generator's
first call returns a mask *produced from the comment line* — the empty mask
of width 0 — with the second line still unread, instead of skipping the
comment line and producing the mask of `"a"`. -/
theorem C6_comment_line_counterexample :
    mfgNext (fun _ => []) 10 [35, 120, 10, 97, 10] =
        GenResult.produced [] [97, 10] ∧
      mfgNext (fun _ => []) 10 [97, 10] = GenResult.produced [[97]] [] ∧
      maskLen [] = 0 := by
  have h1 : readline [35, 120, 10, 97, 10] = some ([35, 120, 10], [97, 10]) := by decide
  have h2 : stripEol [35, 120, 10] = [35, 120] := by decide
  have h3 : readMaskLine (fun _ => []) 10 [35, 120] = some [] := by decide
  have h4 : readline [97, 10] = some ([97, 10], []) := by decide
  have h5 : stripEol [97, 10] = [97] := by decide
  have h6 : readMaskLine (fun _ => []) 10 [97] = some [[97]] := by decide
  refine ⟨?_, ?_, rfl⟩
  · rw [mfgNext_eq, h1]
    simp [h2, h3]
  · rw [mfgNext_eq, h4]
    simp [h5, h6]

/-- Claim C6, amended: an empty line (LF or CRLF) produces no mask — the
generator continues with the next line — while a line whose first character
is `#` makes the generator return an *empty* mask (width 0, length 0),
which contributes zero masks' worth of words (zero words) to the run. -/
theorem C6_comment_and_empty_lines (reg : Nat → List DefaultCharset)
    (fuel : Nat) :
    (∀ rest : List Nat, mfgNext reg fuel (10 :: rest) = mfgNext reg fuel rest) ∧
      (∀ rest : List Nat,
        mfgNext reg fuel (13 :: 10 :: rest) = mfgNext reg fuel rest) ∧
      (∀ (t rest : List Nat), 10 ∉ t →
        mfgNext reg fuel (35 :: (t ++ 10 :: rest)) = GenResult.produced [] rest) ∧
      maskLen [] = 0 ∧ maskWords [] = [] := by
  refine ⟨?_, ?_, ?_, rfl, rfl⟩
  · intro rest
    have h1 : readline (10 :: rest) = some ([10], rest) := by
      have := readline_line (t := []) (by simp) rest
      simpa using this
    have h2 : stripEol [10] = [] := by decide
    rw [mfgNext_eq, h1]
    simp [h2]
  · intro rest
    have h1 : readline (13 :: 10 :: rest) = some ([13, 10], rest) := by
      have := readline_line (t := [13]) (by simp) rest
      simpa using this
    have h2 : stripEol [13, 10] = [] := by decide
    rw [mfgNext_eq, h1]
    simp [h2]
  · intro t rest h10
    have h1 : readline (35 :: (t ++ 10 :: rest)) = some (35 :: t ++ [10], rest) := by
      have := readline_line (t := 35 :: t) (by
        intro hm
        rcases List.mem_cons.mp hm with h | h
        · omega
        · exact h10 h) rest
      simpa using this
    obtain ⟨u, hu⟩ := stripEol_comment t
    have h3 : readMaskLine reg fuel (35 :: u) = some [] := by
      rw [readMaskLine]
      simp
    rw [mfgNext_eq, h1]
    dsimp only
    rw [hu, if_neg (by simp), h3]

/-- Witness for the amended C6 at concrete inputs. -/
theorem C6_comment_and_empty_lines_witness :
    (∀ rest : List Nat,
        mfgNext (fun _ => []) 7 (10 :: rest) = mfgNext (fun _ => []) 7 rest) ∧
      (∀ rest : List Nat,
        mfgNext (fun _ => []) 7 (13 :: 10 :: rest) = mfgNext (fun _ => []) 7 rest) ∧
      (∀ (t rest : List Nat), 10 ∉ t →
        mfgNext (fun _ => []) 7 (35 :: (t ++ 10 :: rest)) =
          GenResult.produced [] rest) ∧
      maskLen [] = 0 ∧ maskWords [] = [] :=
  C6_comment_and_empty_lines (fun _ => []) 7

/-! ### Part VII: bruteforce generator (ReadBruteforce.cpp, claim C3)

A `ConstrainedCharset` carries a charset and two `unsigned int` bounds
`m_min`, `m_max`; the enumeration of masks looks only at the bounds and at
the identity of each charset, so a constraint is modelled as the pair
`(m_min, m_max)` and an emitted mask as the list of *indices* of the
constraints drawn at each position, left to right.  All `unsigned int`
arithmetic of `FirstStageGen` is 32-bit and wraps. -/

def U32 : Nat := 2 ^ 32

/-- 32-bit wrapping addition (`unsigned int` addition). -/
def uadd32 (a b : Nat) : Nat := (a + b) % U32

/-- 32-bit wrapping subtraction (`unsigned int` subtraction), faithful for
`a, b < U32`. -/
def usub32 (a b : Nat) : Nat := (a + U32 - b) % U32

/-- `SecondStageGen<T>::operator()` (ReadBruteforce.cpp:458-487): given the
number `rem` of positions still to fill and the remaining occurrence budget
of each constraint, yield every completion of the mask.  When the mask is
full (`rem = 0`) it is yielded once; otherwise the loop tries the
constraints in index order and recurses after decrementing the chosen
budget, restoring it afterwards. -/
def secondStage : Nat → List Nat → List (List Nat)
  | 0, _ => [[]]
  | rem + 1, counts =>
      (List.range counts.length).flatMap (fun i =>
        if 0 < counts.getD i 0 then
          (secondStage rem (counts.set i (counts.getD i 0 - 1))).map
            (fun m => i :: m)
        else [])

/-- The skip step at the top of the main loop of
`FirstStageGen<T>::operator()` (ReadBruteforce.cpp:539-545): when the
current width is below the target, bump the *first* count by
`min(target_len - current_len, m_max - count)`, where `m_max - count` is an
`unsigned int` subtraction that wraps below zero. -/
def fsSkip (target : Nat) :
    List (Nat × Nat) → List Nat → Nat → List Nat × Nat
  | _, [], len => ([], len)
  | [], c :: rest, len => (c :: rest, len)
  | (_, mx) :: _, c :: rest, len =>
      if len < target then
        let diff := min (target - len) (usub32 mx c)
        (uadd32 c diff :: rest, uadd32 len diff)
      else (c :: rest, len)

/-- The increment step of `FirstStageGen<T>::operator()`
(ReadBruteforce.cpp:566-583): a mixed-radix increment over the counts with
carry whenever the incremented count exceeds its `m_max` or the width
exceeds the target; in the carry case the wheel resets to its `m_min`.
Returns the updated counts, the updated width and the carry out of the
last wheel (which ends the enumeration). -/
def fsIncrement (target : Nat) :
    List (Nat × Nat) → List Nat → Nat → List Nat × Nat × Bool
  | _, [], len => ([], len, true)
  | [], cs, len => (cs, len, true)
  | (mn, mx) :: cons, c :: rest, len =>
      let c1 := uadd32 c 1
      let len1 := uadd32 len 1
      if mx < c1 ∨ target < len1 then
        let len2 := uadd32 (usub32 len1 c1) mn
        let r := fsIncrement target cons rest len2
        (mn :: r.1, r.2)
      else (c1 :: rest, len1, false)

/-- One full pass of the main loop of `FirstStageGen<T>::operator()`
(ReadBruteforce.cpp:538-585), collecting every mask the coroutine yields:
skip, emit the second stage when the width matches, increment, stop on
carry out.  `fuel` bounds the number of loop iterations; exhausting it
returns `none`, while the real exit through the carry returns `some`. -/
def firstStageLoop (target : Nat) (cons : List (Nat × Nat)) :
    Nat → List Nat → Nat → Option (List (List Nat))
  | 0, _, _ => none
  | fuel + 1, counts, len =>
      let p := fsSkip target cons counts len
      let emitted := if p.2 = target then secondStage target p.1 else []
      let r := fsIncrement target cons p.1 p.2
      if r.2.2 then some emitted
      else
        match firstStageLoop target cons fuel r.1 r.2.1 with
        | none => none
        | some l => some (emitted ++ l)

/-- `FirstStageGen<T>` run to completion (ReadBruteforce.cpp:518-589): each
count starts at its constraint's `m_min` and the width at their 32-bit
wrapping sum, then the main loop enumerates.  The result is the list of
masks emitted over one full pass, or `none` if `fuel` iterations did not
reach the carry out. -/
def firstStage (fuel : Nat) (cons : List (Nat × Nat)) (target : Nat) :
    Option (List (List Nat)) :=
  firstStageLoop target cons fuel (cons.map Prod.fst)
    ((cons.map Prod.fst).foldl uadd32 0)

/-- Spec-side definition, written from the claim's words for comparison:
all count vectors `n` with `min_k ≤ n_k ≤ max_k` componentwise. -/
def boxVectors : List (Nat × Nat) → List (List Nat)
  | [] => [[]]
  | (mn, mx) :: cons =>
      ((List.range (mx + 1 - mn)).map (fun i => mn + i)).flatMap
        (fun c => (boxVectors cons).map (fun t => c :: t))

/-- Spec-side definition, written from the claim's words: the claimed
number of masks of one full pass, the sum over every count vector `n` with
`min_k ≤ n_k ≤ max_k` and `Σ n_k = W` of the multinomial
`W! / Π n_k!`. -/
def specBruteforceCount (cons : List (Nat × Nat)) (W : Nat) : Nat :=
  (((boxVectors cons).filter (fun n => n.sum = W)).map
    (fun n => Nat.factorial W / (n.map Nat.factorial).prod)).sum

/-- Claim C3 is refuted by a code bug.  `readBruteforce` accepts constraint
lines with `min > max` — it never compares the two (ReadBruteforce.cpp
clamps only `max_len` to the width, line 800) — and then the skip step's
`unsigned int` difference `m_max - it->second` (ReadBruteforce.cpp:542)
wraps below zero.  For the bruteforce file with width `10` and the single
constraint line `5 2 a` (one charset, `m_min = 5 > m_max = 2`) the
generator completes its pass and emits exactly one mask: it has width `10`
and draws constraint `0` at `10` positions, outside `[5, 2]`; the claim's
total `Σ_{valid n} W! / Π n_k!` is `0`, so the emitted count `1` differs
from it as well. -/
theorem C3_bruteforce_constraint_violation :
    firstStage 4 [(5, 2)] 10 = some [List.replicate 10 0] ∧
      (List.replicate 10 0 : List Nat).length = 10 ∧
      (List.replicate 10 0 : List Nat).count 0 = 10 ∧
      2 < (List.replicate 10 0 : List Nat).count 0 ∧
      specBruteforceCount [(5, 2)] 10 = 0 := by
  decide

end Maskuni
